import Mathlib

/-!
Verification development for the zkv embedded key-value store.

The Go sources under verification are `record.go`, `zkv.go`, `options.go`,
`defaults.go` and `utils.go`.  The embedding below translates that code into
Lean as follows.

Bytes are modelled as `Nat` (every byte the code produces is `< 256`), byte
strings as `List Nat`.  Go maps (`map[string]int64`, `map[string]Offsets`)
are modelled as association lists with unique keys, with lookup/insert/erase
mirroring Go map reads, assignments and `delete`.

External collaborators are modelled at the interface the specification gives
for them (spec section 1 declares them out of scope and used as black boxes):

* `encoding/gob` of a `Record` becomes an injective framing of
  `(Type, KeyHash, ValueBytes)` where the key hash is the fixed 28-byte
  digest the data model prescribes: one type byte, 28 hash bytes, then the
  value bytes.
* zstd compression: the data file is kept as the list of its compressed
  blocks, each block remembered by its decompressed content; an environment
  supplies the opaque compressed size function (`Env.csize`, always
  positive: every frame, the empty-input frame the streaming encoder
  emits on `Close` included, starts with the 4-byte magic number).  Every
  flush appends one frame, an empty one when the buffer is empty;
  `stat.Size()` is the sum of the compressed sizes; decompressing from a
  frame start yields that block followed by all later blocks (zstd readers
  decode concatenated frames).  The magic-marker scan of `readBlock`
  returns the frames in order, but the byte count it reports per frame is
  only the final `ReadBytes(0xfd)` segment's length; the environment keeps
  it as the opaque `Env.readBlockN`, and the scan itself is additionally
  embedded byte-for-byte as `readBlockGo` to settle what that count is.
* `crypto/sha256` digests: keys enter the model already hashed, as the
  28-byte `Key` used by the index maps.

File-system state is a `FS` value: the data file's block list (the empty
list standing for a missing or empty data file, which `Open` treats alike)
and the optional sidecar index file content.  IO never fails in the main
operation models; the fault-injected variant of `flush` used for the
flush-failure claim is modelled separately (`flushErrState`).
-/

namespace Zkv

/-- Keys of the index maps: `string(record.KeyHash[:])`, a 28-byte digest. -/
abbrev Key := List Nat

/-- Go map read `m[k]`: first (unique) binding of `k` in the association list. -/
def findVal (k : Key) : List (Key × α) → Option α
  | [] => none
  | (k', v) :: rest => if k' = k then some v else findVal k rest

/-- Go `delete(m, k)`: drop every binding of `k`. -/
def eraseKey (k : Key) (l : List (Key × α)) : List (Key × α) :=
  l.filter (fun kv => kv.1 ≠ k)

/-- Go map assignment `m[k] = v`: replace the binding of `k`. -/
def insertKey (k : Key) (v : α) (l : List (Key × α)) : List (Key × α) :=
  (k, v) :: eraseKey k l

/-- Uniqueness of map keys, the shape every Go map has. -/
def NodupKeys (l : List (Key × α)) : Prop := (l.map Prod.fst).Nodup

/-! ### Record codec and framing (`record.go`) -/

/-- `RecordType` with `RecordTypeSet = 1`, `RecordTypeDelete = 2` (iota + 1). -/
inductive RecordType where
  | set
  | delete
deriving DecidableEq, Repr

/-- The wire byte of a record type. -/
def recordTypeByte : RecordType → Nat
  | .set => 1
  | .delete => 2

/-- Inverse of `recordTypeByte`; unknown bytes fail to decode. -/
def decodeRecordType (b : Nat) : Option RecordType :=
  if b = 1 then some .set else if b = 2 then some .delete else none

/-- The `Record` struct: type tag, 28-byte key hash, gob-encoded value bytes. -/
structure Record where
  type : RecordType
  keyHash : Key
  valueBytes : List Nat
deriving DecidableEq, Repr

/-- Modelled at the external-codec interface: the `encoding/gob` payload of a
`Record`, an injective framing of the three fields (spec sections 1 and 6
treat the value codec as an opaque black box).  The key hash occupies its
fixed 28 bytes (spec section 3). -/
def gobEncodeRecord (r : Record) : List Nat :=
  recordTypeByte r.type :: (r.keyHash ++ r.valueBytes)

/-- Modelled at the external-codec interface: gob decoding of a record
payload, the inverse of `gobEncodeRecord` on 28-byte-hash records. -/
def gobDecodeRecord : List Nat → Option Record
  | [] => none
  | t :: rest =>
    if rest.length < 28 then none
    else
      match decodeRecordType t with
      | none => none
      | some ty => some ⟨ty, rest.take 28, rest.drop 28⟩

/-- `binary.Write(buf2, binary.LittleEndian, int64(n))` digit by digit:
`k` little-endian base-256 digits of `n`. -/
def leEncodeAux : Nat → Nat → List Nat
  | 0, _ => []
  | k + 1, n => n % 256 :: leEncodeAux k (n / 256)

/-- The 8-byte little-endian length prefix. -/
def leEncode (n : Nat) : List Nat := leEncodeAux 8 n

/-- `binary.Read(r, binary.LittleEndian, &recordBytesLen)`: recombine
little-endian base-256 digits. -/
def leDecode : List Nat → Nat
  | [] => 0
  | d :: rest => d + 256 * leDecode rest

/-- `Record.Marshal`: gob-encode the record, prefix the payload length as an
8-byte little-endian integer. -/
def marshal (r : Record) : List Nat :=
  leEncode (gobEncodeRecord r).length ++ gobEncodeRecord r

/-- `readRecord`: read an 8-byte little-endian length `L`, read `L` payload
bytes, gob-decode them; report `L + 8` consumed bytes.  `none` models the
error returns (short length prefix, short payload, decode failure). -/
def readRecord (stream : List Nat) : Option (Nat × Record) :=
  if stream.length < 8 then none
  else
    let len := leDecode (stream.take 8)
    let rest := stream.drop 8
    if rest.length < len then none
    else
      match gobDecodeRecord (rest.take len) with
      | none => none
      | some r => some (len + 8, r)

/-! ### Environment: the opaque external collaborators -/

/-- Opaque facts about the environment: `csize b` is the byte length of the
zstd frame the streaming encoder writes for buffer content `b` (used for
`stat.Size()` bookkeeping; every frame, the empty-input frame included,
starts with the 4-byte magic number, so it occupies at least one byte);
`readBlockN b` is the byte count `readBlock` reports for that frame — the
length of its final `ReadBytes(0xfd)` segment (zkv.go:411), which depends
on the frame's raw bytes and is left opaque here (see `readBlockGo` for
the byte-level scan itself); and `numCPU` is the host core count used by
`defaultOptions`. -/
structure Env where
  csize : List Nat → Nat
  csize_pos : ∀ b : List Nat, 0 < csize b
  readBlockN : List Nat → Nat
  numCPU : Nat

/-! ### Options (`options.go`, `defaults.go`) -/

/-- The `Options` struct.  `CompressionLevel` is kept as its numeric
`zstd.EncoderLevel` value (`SpeedDefault = 2`). -/
structure Options where
  maxParallelReads : Nat
  compressionLevel : Nat
  memoryBufferSize : Nat
  diskBufferSize : Nat
  useIndexFile : Bool
deriving DecidableEq, Repr

/-- `defaultOptions` from `defaults.go`. -/
def defaultOptions (env : Env) : Options :=
  { maxParallelReads := env.numCPU
    compressionLevel := 2
    memoryBufferSize := 4 * 1024 * 1024
    diskBufferSize := 1 * 1024 * 1024
    useIndexFile := true }

/-- `Options.setDefaults`: force `useIndexFile`, then fill zero-valued
fields from `defaultOptions`. -/
def setDefaults (env : Env) (o : Options) : Options :=
  let o1 := { o with useIndexFile := true }
  let o2 := if o1.maxParallelReads = 0 then
    { o1 with maxParallelReads := (defaultOptions env).maxParallelReads } else o1
  let o3 := if o2.compressionLevel = 0 then
    { o2 with compressionLevel := (defaultOptions env).compressionLevel } else o2
  let o4 := if o3.memoryBufferSize = 0 then
    { o3 with memoryBufferSize := (defaultOptions env).memoryBufferSize } else o3
  if o4.diskBufferSize = 0 then
    { o4 with diskBufferSize := (defaultOptions env).diskBufferSize } else o4

/-! ### Store state and file-system state (`zkv.go`) -/

/-- The `Offsets` struct: which compressed block a record lives in
(`BlockOffset`, a byte offset into the data file) and where in that block's
decompressed bytes it starts (`RecordOffset`). -/
structure Offsets where
  blockOffset : Nat
  recordOffset : Nat
deriving DecidableEq, Repr

/-- The `Store` struct: persisted index, write buffer, buffer index and
options.  The file path, lock and read-admission channel are not modelled
(single-store, sequential embedding). -/
structure Store where
  dataOffset : List (Key × Offsets)
  buffer : List Nat
  bufferDataOffset : List (Key × Nat)
  options : Options
deriving DecidableEq, Repr

/-- File-system state for one store path: the data file as the list of its
compressed blocks (each kept by decompressed content, `[]` standing for a
missing or empty data file, which `Open` treats alike) and the sidecar
`.idx` file content, when present. -/
structure FS where
  file : List (List Nat)
  idx : Option (List (Key × Offsets))
deriving DecidableEq, Repr

/-- A file system with neither a data file nor a sidecar index file. -/
def emptyFS : FS := { file := [], idx := none }

/-- `stat.Size()`: total compressed size of the data file. -/
def fileSize (env : Env) (file : List (List Nat)) : Nat :=
  (file.map env.csize).sum

/-- Seek the data file to byte offset `off` and read the decompressed
stream from there: succeeds when `off` is a frame boundary, yielding that
block's bytes followed by all later blocks (zstd readers decode
concatenated frames); seeking into the middle of a frame fails. -/
def streamAt (env : Env) : List (List Nat) → Nat → Option (List Nat)
  | file, 0 => some file.flatten
  | [], _ + 1 => none
  | b :: rest, off + 1 =>
    if env.csize b ≤ off + 1 then streamAt env rest (off + 1 - env.csize b) else none

/-- The per-key installment loop of `flush`:
`for key, val := range s.bufferDataOffset { s.dataOffset[key] = Offsets{...} }`. -/
def installAll (m : List (Key × Offsets)) (l : List (Key × Nat)) (blockOff : Nat) :
    List (Key × Offsets) :=
  l.foldl (fun acc kv => insertKey kv.1 ⟨blockOff, kv.2⟩ acc) m

/-- `flush` (success path): note the file size, compress the buffer as one
frame and append it — unconditionally, as the code has no empty-buffer
check: the streaming zstd encoder still writes a frame (header, empty last
block, checksum) on `Close` even when nothing was written to it, so an
empty flush appends an empty frame.  Then install every buffer-index entry
into the persisted index at the noted block offset, clear the buffer and
the buffer index, and rewrite the sidecar index when data was written
(`l > 0`, zkv.go:377). -/
def flushOp (env : Env) (s : Store) (fs : FS) : Store × FS :=
  let l := s.buffer.length
  let blockOffset := fileSize env fs.file
  let newDataOffset := installAll s.dataOffset s.bufferDataOffset blockOffset
  ({ s with dataOffset := newDataOffset, buffer := [], bufferDataOffset := [] },
   { fs with file := fs.file ++ [s.buffer],
             idx := if s.options.useIndexFile ∧ 0 < l then some newDataOffset else fs.idx })

/-- `Close`: a final flush. -/
def closeOp (env : Env) (s : Store) (fs : FS) : Store × FS := flushOp env s fs

/-- `set`/`setBytes`: build a Set record for the key hash, record the
buffer-index entry at the current buffer length, append the marshaled
record, and flush if the buffer now exceeds `MemoryBufferSize`. -/
def setOp (env : Env) (s : Store) (fs : FS) (keyHash : Key) (valueBytes : List Nat) :
    Store × FS :=
  let record : Record := ⟨.set, keyHash, valueBytes⟩
  let s1 := { s with
    bufferDataOffset := insertKey keyHash s.buffer.length s.bufferDataOffset
    buffer := s.buffer ++ marshal record }
  if s1.buffer.length > s1.options.memoryBufferSize then flushOp env s1 fs else (s1, fs)

/-- `Delete`: build a Delete record (no payload), remove the key hash from
both indices, append the marshaled tombstone to the buffer, and flush if
the buffer now exceeds `MemoryBufferSize`. -/
def deleteOp (env : Env) (s : Store) (fs : FS) (keyHash : Key) : Store × FS :=
  let record : Record := ⟨.delete, keyHash, []⟩
  let s1 := { s with
    dataOffset := eraseKey keyHash s.dataOffset
    bufferDataOffset := eraseKey keyHash s.bufferDataOffset
    buffer := s.buffer ++ marshal record }
  if s1.buffer.length > s1.options.memoryBufferSize then flushOp env s1 fs else (s1, fs)

/-- The error outcomes of the read path. -/
inductive GetErr where
  | notExists
  | readFailed
  | wrongHash (expected got : Key)
deriving DecidableEq, Repr

/-- `getGobBytes`: resolve a key hash via the buffer index (direct read of
the in-memory buffer, no hash check), else via the persisted index (seek to
the block, decompress, skip to the record, read it and verify its key
hash, reporting both hashes on mismatch), else `ErrNotExists`. -/
def getGobBytes (env : Env) (s : Store) (fs : FS) (keyHash : Key) :
    Except GetErr (List Nat) :=
  match findVal keyHash s.bufferDataOffset with
  | some offset =>
    match readRecord (s.buffer.drop offset) with
    | none => .error .readFailed
    | some (_, record) => .ok record.valueBytes
  | none =>
    match findVal keyHash s.dataOffset with
    | none => .error .notExists
    | some offsets =>
      match streamAt env fs.file offsets.blockOffset with
      | none => .error .readFailed
      | some stream =>
        if stream.length < offsets.recordOffset then .error .readFailed
        else
          match readRecord (stream.drop offsets.recordOffset) with
          | none => .error .readFailed
          | some (_, record) =>
            if record.keyHash = keyHash then .ok record.valueBytes
            else .error (.wrongHash keyHash record.keyHash)

/-! ### Index rebuild by replay (`rebuildIndex`, `readBlock`) -/

/-- Replaying one record onto the index being rebuilt: a Set record
installs/overwrites its key's offsets, a Delete record removes the key. -/
def applyRecord (m : List (Key × Offsets)) (blockOff recOff : Nat) (r : Record) :
    List (Key × Offsets) :=
  match r.type with
  | .set => insertKey r.keyHash ⟨blockOff, recOff⟩ m
  | .delete => eraseKey r.keyHash m

/-- The inner loop of `rebuildIndex`: read records from one decompressed
block, tracking the running record offset; a clean end of the block stream
is the only non-error exit, any torn frame aborts the rebuild. -/
def replayRecords (m : List (Key × Offsets)) (blockOff recOff : Nat)
    (stream : List Nat) : Except Unit (List (Key × Offsets)) :=
  match stream with
  | [] => .ok m
  | x :: xs =>
    match h : readRecord (x :: xs) with
    | none => .error ()
    | some (n, r) =>
      replayRecords (applyRecord m blockOff recOff r) blockOff (recOff + n)
        ((x :: xs).drop n)
termination_by stream.length
decreasing_by
  simp only [readRecord] at h
  split at h
  · exact absurd h (by simp)
  split at h
  · exact absurd h (by simp)
  split at h
  · exact absurd h (by simp)
  rename_i h8 hL r0 hg
  simp only [Option.some.injEq, Prod.mk.injEq] at h
  obtain ⟨hn, -⟩ := h
  simp only [List.length_drop] at hL ⊢
  omega

/-- The outer loop of `rebuildIndex`: the magic-marker scan of `readBlock`
yields the compressed frames in file order; each frame's records are
replayed and then `blockOffset += int64(n)` (zkv.go:478) advances the
running block offset by `n`, the length of `readBlock`'s final
`ReadBytes(0xfd)` segment for that frame (zkv.go:411) — kept opaque here
as `env.readBlockN`, since it depends on the frame's raw compressed bytes.
Note `readBlockN b` need not equal `csize b`, the frame's actual byte
length: see `readBlockGo` and `readBlock_offset_undercount`. -/
def replayBlocks (env : Env) (m : List (Key × Offsets)) (blockOff : Nat) :
    List (List Nat) → Except Unit (List (Key × Offsets))
  | [] => .ok m
  | b :: rest =>
    match replayRecords m blockOff 0 b with
    | .error e => .error e
    | .ok m1 => replayBlocks env m1 (blockOff + env.readBlockN b) rest

/-- `rebuildIndex`: replay the whole data file into a fresh index, install
it as the persisted index, and write it to the sidecar index file. -/
def rebuildIndexOp (env : Env) (s : Store) (fs : FS) : Except Unit (Store × FS) :=
  match replayBlocks env [] 0 fs.file with
  | .error e => .error e
  | .ok m => .ok ({ s with dataOffset := m }, { fs with idx := some m })

/-- An environment whose `readBlock` segment accounting happens to equal
each frame's compressed size — true exactly when no frame's compressed
bytes contain an interior `0xfd` byte, which real zstd output does not
guarantee. -/
def AccurateScan (env : Env) : Prop :=
  ∀ b : List Nat, env.readBlockN b = env.csize b

/-! ### The byte-level `readBlock` scan (`zkv.go:387-414`)

To settle what `readBlock` actually reports, the scan itself is embedded
over raw bytes, independent of the block-granular file model above. -/

/-- The zstd frame magic number, `readBlock`'s `delim`. -/
def zstdMagic : List Nat := [0x28, 0xb5, 0x2f, 0xfd]

/-- `bufio.Reader.ReadBytes(0xfd)`: the bytes up to and including the
first `0xfd`, the remaining input, and whether the delimiter was found
(`false` models the end-of-input error return). -/
def readBytesFd : List Nat → List Nat × List Nat × Bool
  | [] => ([], [], false)
  | x :: xs =>
    if x = 0xfd then ([x], xs, true)
    else
      let r := readBytesFd xs
      (x :: r.1, r.2.1, r.2.2)

/-- Does the byte list end with the zstd magic number
(`bytes.HasSuffix(line, delim)`)? -/
def endsWithMagic (l : List Nat) : Bool :=
  decide (4 ≤ l.length ∧ l.drop (l.length - 4) = zstdMagic)

/-- The loop of `readBlock`, fuel-bounded: each iteration consumes at
least one input byte, so fuel `input.length + 1` always suffices (the
fuel-exhausted branch is unreachable).  Returns `readBlock`'s
`(line, n, err)` as `(line, n, remaining input, eof-flag)`: accumulate
`ReadBytes(0xfd)` segments into `line` (seeded with the magic); at end of
input return `([], 0)` when only the magic was seen, else the accumulated
line and the final segment's length; when `line` is exactly two magics,
reset and continue (first block); when `line` ends with the magic, return
it minus that trailing magic together with the final segment's length
`n = len(s)` (zkv.go:411). -/
def readBlockLoopF : Nat → List Nat → List Nat → List Nat × Nat × List Nat × Bool
  | 0, line, input => (line, 0, input, true)
  | fuel + 1, line, input =>
    let r := readBytesFd input
    let s := r.1
    let rest := r.2.1
    let line2 := line ++ s
    if r.2.2 = false then
      if line2 = zstdMagic then ([], 0, rest, true)
      else (line2, s.length, rest, true)
    else if line2 = zstdMagic ++ zstdMagic then
      readBlockLoopF fuel zstdMagic rest
    else if endsWithMagic line2 then
      (line2.take (line2.length - 4), s.length, rest, false)
    else
      readBlockLoopF fuel line2 rest

/-- `readBlock` on a raw byte stream: one scanned block, the reported byte
count `n`, the remaining stream, and whether end of input was reached. -/
def readBlockGo (input : List Nat) : List Nat × Nat × List Nat × Bool :=
  readBlockLoopF (input.length + 1) zstdMagic input

/-- A freshly constructed store handle (the literal in `OpenWithOptions`). -/
def initStore (env : Env) (o : Options) : Store :=
  { dataOffset := [], buffer := [], bufferDataOffset := [],
    options := setDefaults env o }

/-- `OpenWithOptions`: apply option defaults; load the sidecar index when
configured and present; otherwise return an empty store when there is no
data, else rebuild the index by replaying the data file (which also writes
the sidecar). -/
def openStore (env : Env) (o : Options) (fs : FS) : Except Unit (Store × FS) :=
  let store := initStore env o
  if store.options.useIndexFile ∧ fs.idx.isSome then
    match fs.idx with
    | some m => .ok ({ store with dataOffset := m }, fs)
    | none => .error ()
  else
    if fs.file = [] then .ok (store, fs)
    else rebuildIndexOp env store fs

/-! ### Fault-injected flush (`flush` error returns) -/

/-- The points at which `flush` can return an error. -/
inductive FlushStage where
  | openFile
  | statFile
  | encoderClose
  | diskFlush
  | fileClose
  | saveIndex
deriving DecidableEq, Repr

/-- The in-memory store state at the moment `flush` returns an error at the
given stage, following the source's mutation order: nothing has changed at
the `open`/`stat` error returns, but by the `encoder.Close`,
`diskWriteBuffer.Flush`, `f.Close` and `saveIndex` error returns the buffer
has already been drained by `WriteTo`, the persisted index updated and the
buffer index reset. -/
def flushErrState (env : Env) (s : Store) (fs : FS) : FlushStage → Store
  | .openFile => s
  | .statFile => s
  | _ =>
    { s with
      dataOffset := installAll s.dataOffset s.bufferDataOffset (fileSize env fs.file)
      buffer := []
      bufferDataOffset := [] }

/-! ### Backup (`BackupWithOptions`, `setBytes`) -/

/-- The per-key copy loop of `BackupWithOptions`: for each key hash in the
source's persisted index, read its value bytes from the source and append
them to the destination store as a fresh Set record. -/
def backupLoop (env : Env) (src : Store) (srcFS : FS) :
    Store → FS → List (Key × Offsets) → Except GetErr (Store × FS)
  | d, dfs, [] => .ok (d, dfs)
  | d, dfs, (kh, _) :: rest =>
    match getGobBytes env src srcFS kh with
    | .error e => .error e
    | .ok v =>
      let step := setOp env d dfs kh v
      backupLoop env src srcFS step.1 step.2 rest

/-- `BackupWithOptions`: flush the source, open the destination store, copy
every live key's value bytes into it, and close the destination.  Returns
the flushed source state, the source file system and the destination file
system. -/
def backupRun (env : Env) (s : Store) (fs : FS) (destOpts : Options) (destFS : FS) :
    Except Unit (Store × FS × FS) :=
  let flushed := flushOp env s fs
  match openStore env destOpts destFS with
  | .error _ => .error ()
  | .ok (d0, dfs0) =>
    match backupLoop env flushed.1 flushed.2 d0 dfs0 flushed.1.dataOffset with
    | .error _ => .error ()
    | .ok (d1, dfs1) =>
      let closed := closeOp env d1 dfs1
      .ok (flushed.1, flushed.2, closed.2)

/-! ### The store representation invariant

`WF env s fs M` states that the store/file pair faithfully represents the
abstract key-to-value-bytes map `M`: every live key is resolvable through
the buffer index or the persisted index to a record carrying its hash and
its current value bytes, and dead keys are absent from both indices.  It is
established for a freshly opened empty store and preserved by every
operation. -/

structure WF (env : Env) (s : Store) (fs : FS) (M : List (Key × List Nat)) : Prop where
  nodupBuf : NodupKeys s.bufferDataOffset
  keysWF : ∀ k v, findVal k M = some v → k.length = 28 ∧ 29 + v.length < 2 ^ 64
  lookupWF : ∀ k,
    (match findVal k M with
     | some v =>
       (∃ o, findVal k s.bufferDataOffset = some o ∧
         ∃ n r, readRecord (s.buffer.drop o) = some (n, r) ∧
           r.keyHash = k ∧ r.valueBytes = v) ∨
       (findVal k s.bufferDataOffset = none ∧
         ∃ offs, findVal k s.dataOffset = some offs ∧
           ∃ st, streamAt env fs.file offs.blockOffset = some st ∧
             offs.recordOffset ≤ st.length ∧
             ∃ n r, readRecord (st.drop offs.recordOffset) = some (n, r) ∧
               r.keyHash = k ∧ r.valueBytes = v)
     | none => findVal k s.bufferDataOffset = none ∧ findVal k s.dataOffset = none)

/-! ### Close/reopen: what a closed store leaves on disk -/

/-- A closed (fully flushed) store: empty buffer and buffer index, and the
on-disk state lets `Open` reconstruct the persisted index — either the
sidecar index file holds it, or nothing was ever written (no sidecar, an
empty index, and a data file of empty frames only, left by empty
flushes). -/
def Synced (s : Store) (fs : FS) : Prop :=
  s.buffer = [] ∧ s.bufferDataOffset = [] ∧
    (fs.idx = some s.dataOffset ∨
     (fs.idx = none ∧ s.dataOffset = [] ∧ ∀ b ∈ fs.file, b = []))

/-- A concrete environment for witness instantiations: the opaque
compressed size is modelled as content length plus a four-byte header,
and the scan's reported count as the same quantity. -/
def envW : Env where
  csize := fun b => b.length + 4
  csize_pos := by
    intro b
    show 0 < b.length + 4
    omega
  readBlockN := fun b => b.length + 4
  numCPU := 1

/-- A concrete all-zero `Options` value for witness instantiations. -/
def optW : Options where
  maxParallelReads := 0
  compressionLevel := 0
  memoryBufferSize := 0
  diskBufferSize := 0
  useIndexFile := false

/-- A concrete 28-byte key hash for witness instantiations. -/
def khW : Key := List.replicate 28 7

/-- A concrete freshly opened store for witness instantiations. -/
def storeW : Store := initStore envW optW

/-- A record whose key hash differs from `khW`, for the C7 witness. -/
def recC7 : Record := ⟨.set, List.replicate 28 1, []⟩

/-- A data file holding only `recC7`, for the C7 witness. -/
def fsC7 : FS := { file := [marshal recC7], idx := none }

/-- A store whose persisted index wrongly points `khW` at `recC7`'s record,
for the C7 witness. -/
def storeC7 : Store :=
  { dataOffset := [(khW, ⟨0, 0⟩)], buffer := [], bufferDataOffset := [],
    options := optW }

/-- A store with a dirty buffer and defaulted options, for the C9 witness. -/
def storeC9 : Store :=
  { dataOffset := [], buffer := [0], bufferDataOffset := [],
    options := setDefaults envW optW }

/-- C6 counterexample: the claim that a failed flush leaves the write
buffer and the buffer index unchanged is false on the code: when the error
occurs at the compressor-close step, the buffer has already been drained by
`WriteTo` and the buffer index already reset, as the concrete one-record
store shows. -/
def storeC6 : Store :=
  { dataOffset := [], buffer := marshal ⟨.set, khW, [1]⟩,
    bufferDataOffset := [(khW, 0)], options := setDefaults envW optW }

/-! ### Replay equivalence (claim C3) -/

/-- A public store operation: `Set` or `Delete`, keys already hashed and
values already encoded by the out-of-scope codec. -/
inductive StoreOp where
  | setK (kh : Key) (v : List Nat)
  | delK (kh : Key)

/-- Apply one public operation to a store/file-system pair. -/
def applyOp (env : Env) (sfs : Store × FS) : StoreOp → Store × FS
  | .setK kh v => setOp env sfs.1 sfs.2 kh v
  | .delK kh => deleteOp env sfs.1 sfs.2 kh

/-- Run a sequence of operations against a freshly opened store. -/
def runOps (env : Env) (o : Options) (ops : List StoreOp) : Store × FS :=
  ops.foldl (applyOp env) (initStore env o, emptyFS)

/-- Operation well-formedness: key hashes are the digest's 28 bytes and
record payloads fit the framing (always true of the Go code, where hashes
come from SHA-224 and lengths are `int`). -/
def opWF : StoreOp → Prop
  | .setK kh v => kh.length = 28 ∧ 29 + v.length < 2 ^ 64
  | .delK kh => kh.length = 28

instance decOpWF : (op : StoreOp) → Decidable (opWF op)
  | .setK _ _ => inferInstanceAs (Decidable (_ ∧ _))
  | .delK _ => inferInstanceAs (Decidable (_ = _))

/-- The replay invariant: replaying the data file and then the pending
buffer (as the block the next flush would append, at the block offset the
next flush would record) reproduces exactly the in-memory two-level index. -/
def RInv (env : Env) (s : Store) (fs : FS) : Prop :=
  NodupKeys s.bufferDataOffset ∧
  ∃ m m2, replayBlocks env [] 0 fs.file = .ok m ∧
    replayRecords m (fileSize env fs.file) 0 s.buffer = .ok m2 ∧
    ∀ k, findVal k m2 =
      (match findVal k s.bufferDataOffset with
       | some o => some ⟨fileSize env fs.file, o⟩
       | none => findVal k s.dataOffset)

/-! ### Theorems -/

theorem findVal_insert_self (k : Key) (v : α) (l : List (Key × α)) :
    findVal k (insertKey k v l) = some v := by
  simp [insertKey, findVal]

theorem findVal_erase (k k' : Key) (l : List (Key × α)) :
    findVal k (eraseKey k' l) = if k = k' then none else findVal k l := by
  induction l with
  | nil => simp [eraseKey, findVal]
  | cons kv rest ih =>
    obtain ⟨k0, v0⟩ := kv
    by_cases h0 : k0 = k'
    · subst h0
      rw [show eraseKey k0 ((k0, v0) :: rest) = eraseKey k0 rest from by
        simp [eraseKey]]
      rw [ih]
      by_cases hk : k = k0
      · simp [hk]
      · have hk0 : ¬ k0 = k := fun h => hk h.symm
        simp [findVal, hk, hk0]
    · rw [show eraseKey k' ((k0, v0) :: rest) = (k0, v0) :: eraseKey k' rest from by
        simp [eraseKey, h0]]
      by_cases hk : k = k'
      · subst hk
        have hk0 : ¬ k0 = k := fun h => h0 h
        simp [findVal, hk0, ih]
      · by_cases hk0 : k0 = k <;> simp [findVal, hk0, ih, hk]

theorem findVal_insert_ne (k k' : Key) (v : α) (l : List (Key × α)) (h : k ≠ k') :
    findVal k (insertKey k' v l) = findVal k l := by
  simp only [insertKey, findVal]
  rw [if_neg (fun hh : k' = k => h hh.symm), findVal_erase, if_neg h]

theorem findVal_eq_none_iff (k : Key) (l : List (Key × α)) :
    findVal k l = none ↔ ∀ kv ∈ l, kv.1 ≠ k := by
  induction l with
  | nil => simp [findVal]
  | cons kv rest ih =>
    obtain ⟨k0, v0⟩ := kv
    by_cases h : k0 = k <;> simp [findVal, h, ih]

theorem eraseKey_of_findVal_none (k : Key) (l : List (Key × α))
    (h : findVal k l = none) : eraseKey k l = l := by
  rw [findVal_eq_none_iff] at h
  exact List.filter_eq_self.mpr (by
    intro kv hkv
    simpa using h kv hkv)

theorem nodupKeys_nil : NodupKeys ([] : List (Key × α)) := by
  simp [NodupKeys]

theorem nodupKeys_erase (k : Key) (l : List (Key × α)) (h : NodupKeys l) :
    NodupKeys (eraseKey k l) := by
  simp only [NodupKeys, eraseKey] at h ⊢
  exact (List.Sublist.map Prod.fst (List.filter_sublist l)).nodup h

theorem nodupKeys_insert (k : Key) (v : α) (l : List (Key × α)) (h : NodupKeys l) :
    NodupKeys (insertKey k v l) := by
  have herase := nodupKeys_erase k l h
  simp only [NodupKeys, insertKey, List.map_cons, List.nodup_cons]
  refine ⟨?_, herase⟩
  intro hmem
  simp only [List.mem_map] at hmem
  obtain ⟨⟨k0, v0⟩, hmem, hfst⟩ := hmem
  simp only [eraseKey, List.mem_filter, decide_eq_true_eq] at hmem
  exact hmem.2 hfst

theorem leEncodeAux_length (k n : Nat) : (leEncodeAux k n).length = k := by
  induction k generalizing n with
  | zero => simp [leEncodeAux]
  | succ k ih => simp [leEncodeAux, ih]

theorem leDecode_leEncodeAux (k n : Nat) :
    leDecode (leEncodeAux k n) = n % 256 ^ k := by
  induction k generalizing n with
  | zero => simp [leEncodeAux, leDecode, Nat.mod_one]
  | succ k ih =>
    simp only [leEncodeAux, leDecode, ih]
    rw [Nat.pow_succ, Nat.mul_comm (256 ^ k) 256, Nat.mod_mul]

theorem leEncode_length (n : Nat) : (leEncode n).length = 8 :=
  leEncodeAux_length 8 n

theorem leDecode_leEncode (n : Nat) (h : n < 2 ^ 64) : leDecode (leEncode n) = n := by
  have h256 : (256 : Nat) ^ 8 = 2 ^ 64 := by norm_num
  rw [leEncode, leDecode_leEncodeAux, h256, Nat.mod_eq_of_lt h]

theorem gobDecode_gobEncode (r : Record) (hk : r.keyHash.length = 28) :
    gobDecodeRecord (gobEncodeRecord r) = some r := by
  obtain ⟨ty, kh, vb⟩ := r
  simp only [gobEncodeRecord, gobDecodeRecord]
  have hlen : (kh ++ vb).length = 28 + vb.length := by simp_all
  rw [if_neg (by omega)]
  have htake : (kh ++ vb).take 28 = kh := by
    rw [← hk]; exact List.take_left kh vb
  have hdrop : (kh ++ vb).drop 28 = vb := by
    rw [← hk]; exact List.drop_left kh vb
  cases ty <;> simp [recordTypeByte, decodeRecordType, htake, hdrop]

theorem marshal_length (r : Record) :
    (marshal r).length = (gobEncodeRecord r).length + 8 := by
  simp [marshal, leEncode_length, Nat.add_comm]

theorem gobEncodeRecord_length (r : Record) :
    (gobEncodeRecord r).length = 1 + r.keyHash.length + r.valueBytes.length := by
  simp [gobEncodeRecord]; omega

/-- Round trip through the length-prefixed framing: `readRecord` on a stream
beginning with `marshal r` recovers `r` and consumes `(marshal r).length`
bytes, for any continuation of the stream. -/
theorem readRecord_marshal (r : Record) (rest : List Nat)
    (hk : r.keyHash.length = 28) (hsz : (gobEncodeRecord r).length < 2 ^ 64) :
    readRecord (marshal r ++ rest) = some ((gobEncodeRecord r).length + 8, r) := by
  set payload := gobEncodeRecord r with hpayload
  have h8 : (leEncode payload.length).length = 8 := leEncode_length _
  have hassoc : marshal r ++ rest = leEncode payload.length ++ (payload ++ rest) := by
    simp [marshal, hpayload]
  rw [hassoc, readRecord]
  have hlen : (leEncode payload.length ++ (payload ++ rest)).length =
      8 + (payload.length + rest.length) := by simp [h8]
  rw [if_neg (by omega)]
  have htake : (leEncode payload.length ++ (payload ++ rest)).take 8 =
      leEncode payload.length := by
    rw [← h8]; exact List.take_left _ _
  have hdrop : (leEncode payload.length ++ (payload ++ rest)).drop 8 =
      payload ++ rest := by
    rw [← h8]; exact List.drop_left _ _
  simp only [htake, hdrop, leDecode_leEncode _ hsz]
  rw [if_neg (by simp)]
  have htakeP : (payload ++ rest).take payload.length = payload :=
    List.take_left _ _
  rw [htakeP, hpayload, gobDecode_gobEncode r hk]

theorem readRecord_bounds (stream : List Nat) (n : Nat) (r : Record)
    (h : readRecord stream = some (n, r)) : 8 ≤ n ∧ n ≤ stream.length := by
  simp only [readRecord] at h
  split at h
  · exact absurd h (by simp)
  split at h
  · exact absurd h (by simp)
  split at h
  · exact absurd h (by simp)
  rename_i h8 hL r0 hg
  simp only [Option.some.injEq, Prod.mk.injEq] at h
  obtain ⟨hn, -⟩ := h
  have hd : (stream.drop 8).length = stream.length - 8 := by simp
  omega

/-- Extending a stream on the right does not change the first record read. -/
theorem readRecord_extend (stream tail : List Nat) (n : Nat) (r : Record)
    (h : readRecord stream = some (n, r)) :
    readRecord (stream ++ tail) = some (n, r) := by
  simp only [readRecord] at h
  split at h
  · exact absurd h (by simp)
  split at h
  · exact absurd h (by simp)
  split at h
  · exact absurd h (by simp)
  rename_i h8 hL r0 hg
  simp only [Option.some.injEq, Prod.mk.injEq] at h
  obtain ⟨hn, hr⟩ := h
  have hdlen : (stream.drop 8).length = stream.length - 8 := by simp
  rw [readRecord]
  have hlen : (stream ++ tail).length = stream.length + tail.length := by simp
  rw [if_neg (by omega)]
  have htake8 : (stream ++ tail).take 8 = stream.take 8 := by
    rw [List.take_append_of_le_length (by omega)]
  have hdrop8 : (stream ++ tail).drop 8 = stream.drop 8 ++ tail := by
    rw [List.drop_append_of_le_length (by omega)]
  simp only [htake8, hdrop8]
  rw [if_neg (by simp only [List.length_append]; omega)]
  have htakeL : (stream.drop 8 ++ tail).take (leDecode (stream.take 8)) =
      (stream.drop 8).take (leDecode (stream.take 8)) := by
    rw [List.take_append_of_le_length (by omega)]
  rw [htakeL, hg, ← hn, hr]

/-- C2: for every record (any kind tag, 28-byte key hash and value bytes),
`readRecord` applied to a stream beginning with `Marshal(r)` succeeds,
yields a record equal to `r`, and reports a consumed-byte count exactly
equal to `len(Marshal(r))`, which is the 8-byte little-endian length
prefix plus the payload length. -/
theorem marshal_roundtrip (r : Record) (rest : List Nat)
    (hk : r.keyHash.length = 28) (hsz : (gobEncodeRecord r).length < 2 ^ 64) :
    readRecord (marshal r ++ rest) = some ((marshal r).length, r) ∧
    (marshal r).length = (gobEncodeRecord r).length + 8 := by
  refine ⟨?_, marshal_length r⟩
  rw [readRecord_marshal r rest hk hsz, marshal_length]

/-- C2 witness: a concrete record followed by further stream bytes. -/
theorem marshal_roundtrip_witness :
    readRecord (marshal ⟨.set, List.replicate 28 7, [5]⟩ ++ [0]) =
      some ((marshal ⟨.set, List.replicate 28 7, [5]⟩).length,
        ⟨.set, List.replicate 28 7, [5]⟩) :=
  (marshal_roundtrip ⟨.set, List.replicate 28 7, [5]⟩ [0]
    (by decide) (by decide)).1

/-! ### Lemmas about the file model -/

theorem streamAt_zero (env : Env) (file : List (List Nat)) :
    streamAt env file 0 = some file.flatten := by
  cases file <;> rfl

theorem streamAt_cons_pos (env : Env) (b : List Nat) (rest : List (List Nat))
    (off : Nat) (h : 0 < off) :
    streamAt env (b :: rest) off =
      if env.csize b ≤ off then streamAt env rest (off - env.csize b) else none := by
  obtain ⟨k, rfl⟩ : ∃ k, off = k + 1 := ⟨off - 1, by omega⟩
  rfl

theorem fileSize_cons (env : Env) (b : List Nat) (rest : List (List Nat)) :
    fileSize env (b :: rest) = env.csize b + fileSize env rest := by
  simp [fileSize]

/-- Seeking to the end of the existing blocks and appending new ones reads
exactly the new blocks. -/
theorem streamAt_append (env : Env) (file rest : List (List Nat)) :
    streamAt env (file ++ rest) (fileSize env file) = some rest.flatten := by
  induction file with
  | nil =>
    simp only [List.nil_append, fileSize, List.map_nil, List.sum_nil]
    exact streamAt_zero env rest
  | cons b f ih =>
    have hb : 0 < env.csize b := env.csize_pos b
    rw [List.cons_append, fileSize_cons,
      streamAt_cons_pos env b (f ++ rest) _ (by omega),
      if_pos (by omega)]
    have harith : env.csize b + fileSize env f - env.csize b = fileSize env f := by omega
    rw [harith]
    exact ih

/-- Appending blocks to the file extends every decompression stream read
from an existing frame boundary. -/
theorem streamAt_mono (env : Env) (file more : List (List Nat)) (off : Nat)
    (st : List Nat) (h : streamAt env file off = some st) :
    streamAt env (file ++ more) off = some (st ++ more.flatten) := by
  induction file generalizing off with
  | nil =>
    cases off with
    | zero =>
      rw [streamAt_zero] at h
      simp only [Option.some.injEq] at h
      subst h
      simpa using streamAt_zero env more
    | succ k => exact absurd h (by simp [streamAt])
  | cons b f ih =>
    cases off with
    | zero =>
      rw [streamAt_zero] at h
      simp only [Option.some.injEq] at h
      subst h
      rw [List.cons_append, streamAt_zero]
      simp
    | succ k =>
      rw [streamAt_cons_pos env b f (k + 1) (by omega)] at h
      rw [List.cons_append, streamAt_cons_pos env b (f ++ more) (k + 1) (by omega)]
      by_cases hle : env.csize b ≤ k + 1
      · rw [if_pos hle] at h
        rw [if_pos hle]
        cases hrem : k + 1 - env.csize b with
        | zero => rw [hrem] at h; exact ih _ h
        | succ j => rw [hrem] at h; exact ih _ h
      · rw [if_neg hle] at h
        exact absurd h (by simp)

/-- Lookups after the `flush` installment loop: keys present in the buffer
index are (re)pointed at the new block, all others keep their old entry. -/
theorem findVal_installAll (m : List (Key × Offsets)) (l : List (Key × Nat))
    (blockOff : Nat) (k : Key) (h : NodupKeys l) :
    findVal k (installAll m l blockOff) =
      match findVal k l with
      | some o => some ⟨blockOff, o⟩
      | none => findVal k m := by
  induction l generalizing m with
  | nil => simp [installAll, findVal]
  | cons kv rest ih =>
    obtain ⟨k0, o0⟩ := kv
    have hh : (((k0, o0) :: rest).map Prod.fst).Nodup := h
    rw [List.map_cons, List.nodup_cons] at hh
    obtain ⟨hk0, hnodup⟩ := hh
    show findVal k (installAll (insertKey k0 ⟨blockOff, o0⟩ m) rest blockOff) = _
    rw [ih _ hnodup]
    by_cases hk : k = k0
    · subst hk
      have hrest : findVal k rest = none := by
        rw [findVal_eq_none_iff]
        intro kv hkv hfst
        exact hk0 (List.mem_map.mpr ⟨kv, hkv, hfst⟩)
      rw [hrest]
      simp [findVal, findVal_insert_self]
    · rw [findVal_insert_ne _ _ _ _ hk]
      have hne : ¬ k0 = k := fun hh => hk hh.symm
      simp [findVal, hne]

/-! ### Unfolding and composition lemmas for record replay -/

theorem replayRecords_nil_eq (m : List (Key × Offsets)) (bo ro : Nat) :
    replayRecords m bo ro [] = .ok m := by
  rw [replayRecords]

theorem replayRecords_cons_some (m : List (Key × Offsets)) (bo ro : Nat)
    {x : Nat} {xs : List Nat} {n : Nat} {r : Record}
    (h : readRecord (x :: xs) = some (n, r)) :
    replayRecords m bo ro (x :: xs) =
      replayRecords (applyRecord m bo ro r) bo (ro + n) ((x :: xs).drop n) := by
  rw [replayRecords]
  split
  · next heq => rw [heq] at h; exact absurd h (by simp)
  · next n0 r0 heq =>
    rw [heq] at h
    simp only [Option.some.injEq, Prod.mk.injEq] at h
    rw [h.1, h.2]

theorem replayRecords_cons_none (m : List (Key × Offsets)) (bo ro : Nat)
    {x : Nat} {xs : List Nat} (h : readRecord (x :: xs) = none) :
    replayRecords m bo ro (x :: xs) = .error () := by
  rw [replayRecords]
  split
  · rfl
  · next n0 r0 heq => rw [heq] at h; exact absurd h (by simp)

/-- Replay distributes over concatenation of a cleanly replayable prefix. -/
theorem replayRecords_append (s : List Nat) : ∀ (t : List Nat)
    (m m1 : List (Key × Offsets)) (bo ro : Nat),
    replayRecords m bo ro s = .ok m1 →
    replayRecords m bo ro (s ++ t) = replayRecords m1 bo (ro + s.length) t := by
  generalize hN : s.length = N
  induction N using Nat.strong_induction_on generalizing s with
  | _ N ih =>
    intro t m m1 bo ro h
    cases s with
    | nil =>
      rw [replayRecords_nil_eq] at h
      simp only [Except.ok.injEq] at h
      subst h
      simp only [List.length_nil] at hN
      subst hN
      simp
    | cons x xs =>
      cases hr : readRecord (x :: xs) with
      | none => rw [replayRecords_cons_none _ _ _ hr] at h; exact absurd h (by simp)
      | some nr =>
        obtain ⟨n, r⟩ := nr
        have hb := readRecord_bounds _ _ _ hr
        rw [replayRecords_cons_some _ _ _ hr] at h
        have hr2 : readRecord (x :: (xs ++ t)) = some (n, r) := by
          have := readRecord_extend (x :: xs) t _ _ hr
          simpa using this
        rw [List.cons_append, replayRecords_cons_some _ _ _ hr2]
        have hdrop : (x :: (xs ++ t)).drop n = (x :: xs).drop n ++ t := by
          rw [show x :: (xs ++ t) = (x :: xs) ++ t from rfl]
          exact List.drop_append_of_le_length hb.2
        rw [hdrop]
        have hlt : ((x :: xs).drop n).length < N := by
          simp only [List.length_drop]
          omega
        have := ih _ hlt ((x :: xs).drop n) rfl t _ m1 bo (ro + n) h
        rw [this]
        have harith : ro + n + ((x :: xs).drop n).length = ro + (x :: xs).length := by
          simp only [List.length_drop]
          omega
        rw [harith, hN]

/-- Replaying exactly one marshaled record applies it to the index. -/
theorem replayRecords_marshal (m : List (Key × Offsets)) (bo ro : Nat) (r : Record)
    (hk : r.keyHash.length = 28) (hsz : (gobEncodeRecord r).length < 2 ^ 64) :
    replayRecords m bo ro (marshal r) = .ok (applyRecord m bo ro r) := by
  have hread : readRecord (marshal r) = some ((gobEncodeRecord r).length + 8, r) := by
    have := readRecord_marshal r [] hk hsz
    simpa using this
  have hlen : (marshal r).length = (gobEncodeRecord r).length + 8 := marshal_length r
  cases hm : marshal r with
  | nil => rw [hm] at hlen; simp at hlen
  | cons x xs =>
    rw [hm] at hread
    rw [replayRecords_cons_some _ _ _ hread]
    have hdrop : (x :: xs).drop ((gobEncodeRecord r).length + 8) = [] := by
      apply List.drop_eq_nil_of_le
      rw [← hm, hlen]
    rw [hdrop, replayRecords_nil_eq]

/-- A fresh empty store over an empty file system represents the empty map. -/
theorem WF_empty (env : Env) (o : Options) :
    WF env (initStore env o) emptyFS [] := by
  refine ⟨?_, ?_, ?_⟩
  · exact nodupKeys_nil
  · intro k v hv; simp [findVal] at hv
  · intro k; simp [findVal, initStore]

/-- Under `WF`, the read path returns exactly the abstract map's answer. -/
theorem getGobBytes_eq (env : Env) (s : Store) (fs : FS)
    (M : List (Key × List Nat)) (hwf : WF env s fs M) (k : Key) :
    getGobBytes env s fs k =
      match findVal k M with
      | some v => .ok v
      | none => .error .notExists := by
  have h := hwf.lookupWF k
  cases hM : findVal k M with
  | some v =>
    rw [hM] at h
    rcases h with ⟨o, hfind, n, r, hread, hkh, hval⟩ |
      ⟨hnone, offs, hoffs, st, hst, hro, n, r, hread, hkh, hval⟩
    · simp [getGobBytes, hfind, hread, hval]
    · simp only [getGobBytes, hnone, hoffs, hst]
      rw [if_neg (Nat.not_lt.mpr hro)]
      simp [hread, hkh, hval]
  | none =>
    rw [hM] at h
    simp [getGobBytes, h.1, h.2]

/-- With an empty buffer, `WF` forces an empty buffer index. -/
theorem bufferIndex_nil_of_buffer_nil (env : Env) (s : Store) (fs : FS)
    (M : List (Key × List Nat)) (hwf : WF env s fs M) (hbe : s.buffer = []) :
    s.bufferDataOffset = [] := by
  cases hb : s.bufferDataOffset with
  | nil => rfl
  | cons kv rest =>
    obtain ⟨k0, o0⟩ := kv
    exfalso
    have hfind : findVal k0 s.bufferDataOffset = some o0 := by
      rw [hb]; simp [findVal]
    have h := hwf.lookupWF k0
    cases hM : findVal k0 M with
    | some v =>
      rw [hM] at h
      rcases h with ⟨o, ho, n, r, hread, -⟩ | ⟨hnone, -⟩
      · rw [hbe] at hread
        simp [readRecord] at hread
      · rw [hnone] at hfind; exact absurd hfind (by simp)
    | none =>
      rw [hM] at h
      rw [h.1] at hfind
      exact absurd hfind (by simp)

/-- `flush` on an empty buffer with an empty buffer index leaves the store
state and the sidecar unchanged, and appends one empty frame to the data
file (the streaming encoder writes a frame even for empty input). -/
theorem flushOp_of_empty (env : Env) (s : Store) (fs : FS)
    (hbe : s.buffer = []) (hbdo : s.bufferDataOffset = []) :
    flushOp env s fs = (s, { fs with file := fs.file ++ [[]] }) := by
  obtain ⟨dOff, buf, bdo, opts⟩ := s
  obtain ⟨f, i⟩ := fs
  simp only at hbe hbdo
  subst hbe hbdo
  simp [flushOp, installAll]

/-- A record pointed at from inside the buffer starts within it. -/
theorem bufferEntry_le (buffer : List Nat) (o n : Nat) (r : Record)
    (h : readRecord (buffer.drop o) = some (n, r)) : o ≤ buffer.length := by
  have hb := readRecord_bounds _ _ _ h
  have hd : (buffer.drop o).length = buffer.length - o := by simp
  omega

/-- Appending bytes to the buffer does not disturb existing buffer reads. -/
theorem bufferEntry_extend (buffer extra : List Nat) (o n : Nat) (r : Record)
    (h : readRecord (buffer.drop o) = some (n, r)) :
    readRecord ((buffer ++ extra).drop o) = some (n, r) := by
  have ho := bufferEntry_le buffer o n r h
  rw [List.drop_append_of_le_length ho]
  exact readRecord_extend _ _ _ _ h

/-- The state of `set` just before its flush check represents `M` with the
new binding installed. -/
theorem WF_setAppend (env : Env) (s : Store) (fs : FS) (M : List (Key × List Nat))
    (kh : Key) (v : List Nat) (hwf : WF env s fs M)
    (hk : kh.length = 28) (hsz : 29 + v.length < 2 ^ 64) :
    WF env
      { s with
        bufferDataOffset := insertKey kh s.buffer.length s.bufferDataOffset
        buffer := s.buffer ++ marshal ⟨.set, kh, v⟩ }
      fs (insertKey kh v M) := by
  have hszg : (gobEncodeRecord ⟨.set, kh, v⟩).length < 2 ^ 64 := by
    rw [gobEncodeRecord_length]
    simp only [hk]
    omega
  refine ⟨nodupKeys_insert _ _ _ hwf.nodupBuf, ?_, ?_⟩
  · intro k w hv
    by_cases hkk : k = kh
    · subst hkk
      rw [findVal_insert_self] at hv
      simp only [Option.some.injEq] at hv
      subst hv
      exact ⟨hk, hsz⟩
    · rw [findVal_insert_ne _ _ _ _ hkk] at hv
      exact hwf.keysWF k w hv
  · intro k
    by_cases hkk : k = kh
    · subst hkk
      rw [findVal_insert_self]
      left
      refine ⟨s.buffer.length, findVal_insert_self _ _ _, ?_⟩
      have hdrop : (s.buffer ++ marshal ⟨.set, k, v⟩).drop s.buffer.length =
          marshal ⟨.set, k, v⟩ := List.drop_left _ _
      rw [hdrop]
      have hread := readRecord_marshal ⟨.set, k, v⟩ [] hk hszg
      rw [List.append_nil] at hread
      exact ⟨_, _, hread, rfl, rfl⟩
    · rw [findVal_insert_ne _ _ _ _ hkk]
      have h := hwf.lookupWF k
      cases hM : findVal k M with
      | some w =>
        rw [hM] at h
        rcases h with ⟨o, hfind, n, r, hread, hkh, hval⟩ |
          ⟨hnone, offs, hoffs, st, hst, hro, n, r, hread, hkh, hval⟩
        · left
          refine ⟨o, ?_, n, r, ?_, hkh, hval⟩
          · rw [findVal_insert_ne _ _ _ _ hkk]; exact hfind
          · exact bufferEntry_extend _ _ _ _ _ hread
        · right
          refine ⟨?_, offs, hoffs, st, hst, hro, n, r, hread, hkh, hval⟩
          rw [findVal_insert_ne _ _ _ _ hkk]; exact hnone
      | none =>
        rw [hM] at h
        exact ⟨by rw [findVal_insert_ne _ _ _ _ hkk]; exact h.1, h.2⟩

/-- `flush` preserves the representation invariant. -/
theorem WF_flush (env : Env) (s : Store) (fs : FS) (M : List (Key × List Nat))
    (hwf : WF env s fs M) :
    WF env (flushOp env s fs).1 (flushOp env s fs).2 M := by
  have hfile : (flushOp env s fs).2.file = fs.file ++ [s.buffer] := by
    simp [flushOp]
  refine ⟨nodupKeys_nil, hwf.keysWF, ?_⟩
  intro k
  have hinst : findVal k (flushOp env s fs).1.dataOffset =
      match findVal k s.bufferDataOffset with
      | some o => some ⟨fileSize env fs.file, o⟩
      | none => findVal k s.dataOffset := by
    simp only [flushOp]
    exact findVal_installAll _ _ _ _ hwf.nodupBuf
  have hbdoE : (flushOp env s fs).1.bufferDataOffset = [] := by simp [flushOp]
  have h := hwf.lookupWF k
  cases hM : findVal k M with
  | some v =>
    rw [hM] at h
    right
    rcases h with ⟨o, hfind, n, r, hread, hkh, hval⟩ |
      ⟨hnone, offs, hoffs, st, hst, hro, n, r, hread, hkh, hval⟩
    · refine ⟨by rw [hbdoE]; rfl, ⟨fileSize env fs.file, o⟩, ?_, ?_⟩
      · rw [hinst, hfind]
      · have hstream : streamAt env (flushOp env s fs).2.file
            (fileSize env fs.file) = some s.buffer := by
          rw [hfile]
          have := streamAt_append env fs.file [s.buffer]
          simpa using this
        refine ⟨s.buffer, hstream, bufferEntry_le _ _ _ _ hread, n, r, hread, hkh, hval⟩
    · refine ⟨by rw [hbdoE]; rfl, offs, ?_, ?_⟩
      · rw [hinst, hnone]; exact hoffs
      · have hstream : streamAt env (flushOp env s fs).2.file offs.blockOffset =
            some (st ++ s.buffer) := by
          rw [hfile]
          have := streamAt_mono env fs.file [s.buffer] offs.blockOffset st hst
          simpa using this
        refine ⟨st ++ s.buffer, hstream, by simp; omega, n, r, ?_, hkh, hval⟩
        rw [List.drop_append_of_le_length hro]
        exact readRecord_extend _ _ _ _ hread
  | none =>
    rw [hM] at h
    refine ⟨by rw [hbdoE]; rfl, ?_⟩
    rw [hinst, h.1]
    exact h.2

/-- `set` preserves the representation invariant, installing the binding. -/
theorem WF_set (env : Env) (s : Store) (fs : FS) (M : List (Key × List Nat))
    (kh : Key) (v : List Nat) (hwf : WF env s fs M)
    (hk : kh.length = 28) (hsz : 29 + v.length < 2 ^ 64) :
    WF env (setOp env s fs kh v).1 (setOp env s fs kh v).2 (insertKey kh v M) := by
  have hpre := WF_setAppend env s fs M kh v hwf hk hsz
  rw [setOp]
  split
  · exact WF_flush env _ fs _ hpre
  · exact hpre

/-- The state of `Delete` just before its flush check represents `M` with
the binding removed. -/
theorem WF_deleteAppend (env : Env) (s : Store) (fs : FS)
    (M : List (Key × List Nat)) (kh : Key) (hwf : WF env s fs M) :
    WF env
      { s with
        dataOffset := eraseKey kh s.dataOffset
        bufferDataOffset := eraseKey kh s.bufferDataOffset
        buffer := s.buffer ++ marshal ⟨.delete, kh, []⟩ }
      fs (eraseKey kh M) := by
  refine ⟨nodupKeys_erase _ _ hwf.nodupBuf, ?_, ?_⟩
  · intro k w hv
    rw [findVal_erase] at hv
    by_cases hkk : k = kh
    · rw [if_pos hkk] at hv; exact absurd hv (by simp)
    · rw [if_neg hkk] at hv; exact hwf.keysWF k w hv
  · intro k
    rw [findVal_erase]
    by_cases hkk : k = kh
    · rw [if_pos hkk]
      exact ⟨by rw [findVal_erase, if_pos hkk], by rw [findVal_erase, if_pos hkk]⟩
    · rw [if_neg hkk]
      have h := hwf.lookupWF k
      cases hM : findVal k M with
      | some w =>
        rw [hM] at h
        rcases h with ⟨o, hfind, n, r, hread, hkh, hval⟩ |
          ⟨hnone, offs, hoffs, st, hst, hro, n, r, hread, hkh, hval⟩
        · left
          refine ⟨o, by rw [findVal_erase, if_neg hkk]; exact hfind, n, r,
            bufferEntry_extend _ _ _ _ _ hread, hkh, hval⟩
        · right
          refine ⟨by rw [findVal_erase, if_neg hkk]; exact hnone, offs,
            by rw [findVal_erase, if_neg hkk]; exact hoffs,
            st, hst, hro, n, r, hread, hkh, hval⟩
      | none =>
        rw [hM] at h
        exact ⟨by rw [findVal_erase, if_neg hkk]; exact h.1,
          by rw [findVal_erase, if_neg hkk]; exact h.2⟩

/-- `Delete` preserves the representation invariant, removing the binding. -/
theorem WF_delete (env : Env) (s : Store) (fs : FS) (M : List (Key × List Nat))
    (kh : Key) (hwf : WF env s fs M) :
    WF env (deleteOp env s fs kh).1 (deleteOp env s fs kh).2 (eraseKey kh M) := by
  have hpre := WF_deleteAppend env s fs M kh hwf
  rw [deleteOp]
  split
  · exact WF_flush env _ fs _ hpre
  · exact hpre

theorem setDefaults_useIndexFile (env : Env) (o : Options) :
    (setDefaults env o).useIndexFile = true := by
  simp only [setDefaults]
  split <;> split <;> split <;> split <;> rfl

theorem marshal_ne_nil (r : Record) : marshal r ≠ [] := by
  intro h
  have := marshal_length r
  rw [h] at this
  simp at this

theorem flushOp_options (env : Env) (s : Store) (fs : FS) :
    (flushOp env s fs).1.options = s.options := by
  simp [flushOp]

theorem setOp_options (env : Env) (s : Store) (fs : FS) (kh : Key) (v : List Nat) :
    (setOp env s fs kh v).1.options = s.options := by
  rw [setOp]
  split
  · rw [flushOp_options]
  · rfl

theorem deleteOp_options (env : Env) (s : Store) (fs : FS) (kh : Key) :
    (deleteOp env s fs kh).1.options = s.options := by
  rw [deleteOp]
  split
  · rw [flushOp_options]
  · rfl

/-- All blocks of an all-empty-frame file replay to the unchanged index. -/
theorem replayBlocks_of_empty_blocks (env : Env) (m : List (Key × Offsets)) :
    ∀ (blocks : List (List Nat)) (bo : Nat), (∀ b ∈ blocks, b = []) →
      replayBlocks env m bo blocks = .ok m := by
  intro blocks
  induction blocks with
  | nil => intro bo _; rfl
  | cons b rest ih =>
    intro bo hb
    have hbe : b = [] := hb b (by simp)
    subst hbe
    simp only [replayBlocks, replayRecords_nil_eq]
    exact ih _ (fun b0 h0 => hb b0 (by simp [h0]))

/-- After a flush of a dirty buffer, or of an already synced store, the
store is synced: `flush` writes the sidecar whenever it wrote data, and an
empty flush only adds an empty frame. -/
theorem flushOp_synced (env : Env) (s : Store) (fs : FS)
    (hopt : s.options.useIndexFile = true)
    (h : s.buffer ≠ [] ∨ Synced s fs) :
    Synced (flushOp env s fs).1 (flushOp env s fs).2 := by
  rcases h with hne | hs
  · have hl : 0 < s.buffer.length := List.length_pos.mpr hne
    refine ⟨by simp [flushOp], by simp [flushOp], Or.inl ?_⟩
    simp [flushOp, hopt, hl]
  · obtain ⟨hbe, hbdo, hidx⟩ := hs
    rw [flushOp_of_empty env s fs hbe hbdo]
    rcases hidx with hidx | ⟨hidx, hdo, hblocks⟩
    · exact ⟨hbe, hbdo, Or.inl hidx⟩
    · refine ⟨hbe, hbdo, Or.inr ⟨hidx, hdo, ?_⟩⟩
      intro b hb
      rcases List.mem_append.mp hb with hb | hb
      · exact hblocks b hb
      · exact List.mem_singleton.mp hb

/-- After `set`, the buffer is dirty or an automatic flush has synced. -/
theorem setOp_post (env : Env) (s : Store) (fs : FS) (kh : Key) (v : List Nat)
    (hopt : s.options.useIndexFile = true) :
    (setOp env s fs kh v).1.buffer ≠ [] ∨
      Synced (setOp env s fs kh v).1 (setOp env s fs kh v).2 := by
  rw [setOp]
  split
  · right
    exact flushOp_synced env _ fs hopt (Or.inl (by
      simp only []
      intro hh
      exact marshal_ne_nil _ (List.append_eq_nil.mp hh).2))
  · left
    simp only []
    intro hh
    exact marshal_ne_nil _ (List.append_eq_nil.mp hh).2

/-- After `Delete`, the buffer is dirty or an automatic flush has synced. -/
theorem deleteOp_post (env : Env) (s : Store) (fs : FS) (kh : Key)
    (hopt : s.options.useIndexFile = true) :
    (deleteOp env s fs kh).1.buffer ≠ [] ∨
      Synced (deleteOp env s fs kh).1 (deleteOp env s fs kh).2 := by
  rw [deleteOp]
  split
  · right
    exact flushOp_synced env _ fs hopt (Or.inl (by
      simp only []
      intro hh
      exact marshal_ne_nil _ (List.append_eq_nil.mp hh).2))
  · left
    simp only []
    intro hh
    exact marshal_ne_nil _ (List.append_eq_nil.mp hh).2

/-- Opening the file system left by a synced store succeeds and yields a
store representing the same abstract map: either the sidecar is loaded, or
(when nothing was ever written) the store comes back empty, possibly by
replaying a data file of empty frames. -/
theorem openStore_of_synced (env : Env) (o : Options) (s : Store) (fs : FS)
    (M : List (Key × List Nat)) (hs : Synced s fs) (hwf : WF env s fs M) :
    ∃ s2 fs2, openStore env o fs = .ok (s2, fs2) ∧ WF env s2 fs2 M := by
  obtain ⟨hbe, hbdo, hidx⟩ := hs
  have huse : (initStore env o).options.useIndexFile = true := by
    simp [initStore, setDefaults_useIndexFile]
  rcases hidx with hidx | ⟨hidx, hdo, hblocks⟩
  · refine ⟨{ initStore env o with dataOffset := s.dataOffset }, fs, ?_, ?_⟩
    · rw [openStore]
      rw [if_pos (by rw [hidx]; exact ⟨huse, rfl⟩)]
      rw [hidx]
    · refine ⟨nodupKeys_nil, hwf.keysWF, ?_⟩
      intro k
      have h := hwf.lookupWF k
      cases hM : findVal k M with
      | some v =>
        rw [hM] at h
        rcases h with ⟨o0, hfind, -⟩ | ⟨-, offs, hoffs, st, hst, hro, n, r, hread, hkh, hval⟩
        · rw [hbdo] at hfind; exact absurd hfind (by simp [findVal])
        · exact Or.inr ⟨rfl, offs, hoffs, st, hst, hro, n, r, hread, hkh, hval⟩
      | none =>
        rw [hM] at h
        exact ⟨rfl, h.2⟩
  · have hMnone : ∀ k, findVal k M = none := by
      intro k
      have h := hwf.lookupWF k
      cases hM : findVal k M with
      | some v =>
        rw [hM] at h
        rcases h with ⟨o0, hfind, -⟩ | ⟨-, offs, hoffs, -⟩
        · rw [hbdo] at hfind; exact absurd hfind (by simp [findVal])
        · rw [hdo] at hoffs; exact absurd hoffs (by simp [findVal])
      | none => rfl
    by_cases hf : fs.file = []
    · refine ⟨initStore env o, fs, ?_, ?_⟩
      · rw [openStore]
        rw [if_neg (by rw [hidx]; simp)]
        rw [if_pos hf]
      · refine ⟨nodupKeys_nil, hwf.keysWF, ?_⟩
        intro k
        rw [hMnone k]
        exact ⟨rfl, rfl⟩
    · have hreb : replayBlocks env [] 0 fs.file = .ok [] :=
        replayBlocks_of_empty_blocks env [] fs.file 0 hblocks
      refine ⟨{ initStore env o with dataOffset := [] },
        { fs with idx := some [] }, ?_, ?_⟩
      · rw [openStore]
        rw [if_neg (by rw [hidx]; simp)]
        rw [if_neg hf]
        simp only [rebuildIndexOp, hreb]
      · refine ⟨nodupKeys_nil, hwf.keysWF, ?_⟩
        intro k
        rw [hMnone k]
        exact ⟨rfl, rfl⟩

/-! ### Claim theorems -/

/-- C1: after `Set(k, v)` on an open store (any store satisfying the
representation invariant) with no intervening `Delete(k)`, `Get(k)` returns
the value bytes of `v`: (a) immediately after the `Set`, whether the record
is still in the write buffer or an automatic flush moved it to the
persisted index, (b) after an explicit `Flush`, and (c) after `Close`
followed by re-`Open` of the same file under any options.  Values and keys
are related to their byte form by the out-of-scope gob codec, whose
contract is `decode (encode v) = v`. -/
theorem set_then_get (env : Env) (s : Store) (fs : FS) (M : List (Key × List Nat))
    (kh : Key) (v : List Nat) (hwf : WF env s fs M)
    (hopt : s.options.useIndexFile = true)
    (hk : kh.length = 28) (hsz : 29 + v.length < 2 ^ 64) :
    getGobBytes env (setOp env s fs kh v).1 (setOp env s fs kh v).2 kh = .ok v ∧
    getGobBytes env (flushOp env (setOp env s fs kh v).1 (setOp env s fs kh v).2).1
      (flushOp env (setOp env s fs kh v).1 (setOp env s fs kh v).2).2 kh = .ok v ∧
    ∀ (o2 : Options) (s2 : Store) (fs2 : FS),
      openStore env o2
        (closeOp env (setOp env s fs kh v).1 (setOp env s fs kh v).2).2 = .ok (s2, fs2) →
      getGobBytes env s2 fs2 kh = .ok v := by
  have hwf1 := WF_set env s fs M kh v hwf hk hsz
  have hfind : findVal kh (insertKey kh v M) = some v := findVal_insert_self _ _ _
  refine ⟨?_, ?_, ?_⟩
  · rw [getGobBytes_eq env _ _ _ hwf1 kh, hfind]
  · have hwf2 := WF_flush env _ _ _ hwf1
    rw [getGobBytes_eq env _ _ _ hwf2 kh, hfind]
  · intro o2 s2 fs2 hopen
    have hopt1 : (setOp env s fs kh v).1.options.useIndexFile = true := by
      rw [setOp_options]; exact hopt
    have hsync : Synced (closeOp env (setOp env s fs kh v).1 (setOp env s fs kh v).2).1
        (closeOp env (setOp env s fs kh v).1 (setOp env s fs kh v).2).2 :=
      flushOp_synced env _ _ hopt1 (setOp_post env s fs kh v hopt)
    have hwf3 : WF env (closeOp env (setOp env s fs kh v).1 (setOp env s fs kh v).2).1
        (closeOp env (setOp env s fs kh v).1 (setOp env s fs kh v).2).2
        (insertKey kh v M) := WF_flush env _ _ _ hwf1
    obtain ⟨s2', fs2', hopen', hwf'⟩ :=
      openStore_of_synced env o2 _ _ _ hsync hwf3
    rw [hopen'] at hopen
    simp only [Except.ok.injEq, Prod.mk.injEq] at hopen
    obtain ⟨hs2, hfs2⟩ := hopen
    subst hs2 hfs2
    rw [getGobBytes_eq env _ _ _ hwf' kh, hfind]

/-- C1 witness: a concrete instantiation on an empty store. -/
theorem set_then_get_witness :
    getGobBytes envW (setOp envW storeW emptyFS khW [42]).1
      (setOp envW storeW emptyFS khW [42]).2 khW = .ok [42] := by
  have h := set_then_get envW storeW emptyFS [] khW [42]
    (WF_empty _ _) (by rw [storeW, initStore]; exact setDefaults_useIndexFile _ _)
    (by simp [khW]) (by norm_num)
  exact h.1

/-- C4: after `Delete(k)` on an open store, `Get(k)` fails with
`ErrNotExists`: immediately (before any flush), because `Delete`
synchronously removes the key hash from both the persisted index and the
buffer index, and also after `Close` and re-`Open` of the same file,
because the tombstone's effect is reflected in the reconstructed index. -/
theorem delete_then_get (env : Env) (s : Store) (fs : FS)
    (M : List (Key × List Nat)) (kh : Key) (hwf : WF env s fs M)
    (hopt : s.options.useIndexFile = true) :
    getGobBytes env (deleteOp env s fs kh).1 (deleteOp env s fs kh).2 kh =
      .error .notExists ∧
    findVal kh (deleteOp env s fs kh).1.bufferDataOffset = none ∧
    findVal kh (deleteOp env s fs kh).1.dataOffset = none ∧
    ∀ (o2 : Options) (s2 : Store) (fs2 : FS),
      openStore env o2 (closeOp env (deleteOp env s fs kh).1
        (deleteOp env s fs kh).2).2 = .ok (s2, fs2) →
      getGobBytes env s2 fs2 kh = .error .notExists := by
  have hwf1 := WF_delete env s fs M kh hwf
  have hfind : findVal kh (eraseKey kh M) = none := by
    rw [findVal_erase, if_pos rfl]
  have hboth := hwf1.lookupWF kh
  rw [hfind] at hboth
  refine ⟨?_, hboth.1, hboth.2, ?_⟩
  · rw [getGobBytes_eq env _ _ _ hwf1 kh, hfind]
  · intro o2 s2 fs2 hopen
    have hopt1 : (deleteOp env s fs kh).1.options.useIndexFile = true := by
      rw [deleteOp_options]; exact hopt
    have hsync : Synced (closeOp env (deleteOp env s fs kh).1 (deleteOp env s fs kh).2).1
        (closeOp env (deleteOp env s fs kh).1 (deleteOp env s fs kh).2).2 :=
      flushOp_synced env _ _ hopt1 (deleteOp_post env s fs kh hopt)
    have hwf3 : WF env (closeOp env (deleteOp env s fs kh).1 (deleteOp env s fs kh).2).1
        (closeOp env (deleteOp env s fs kh).1 (deleteOp env s fs kh).2).2
        (eraseKey kh M) := WF_flush env _ _ _ hwf1
    obtain ⟨s2', fs2', hopen', hwf'⟩ :=
      openStore_of_synced env o2 _ _ _ hsync hwf3
    rw [hopen'] at hopen
    simp only [Except.ok.injEq, Prod.mk.injEq] at hopen
    obtain ⟨hs2, hfs2⟩ := hopen
    subst hs2 hfs2
    rw [getGobBytes_eq env _ _ _ hwf' kh, hfind]

/-- C4 witness: deleting on a concrete store (after one `Set` of the same
key, so the deletion is observable). -/
theorem delete_then_get_witness :
    getGobBytes envW
      (deleteOp envW (setOp envW storeW emptyFS khW [42]).1
        (setOp envW storeW emptyFS khW [42]).2 khW).1
      (deleteOp envW (setOp envW storeW emptyFS khW [42]).1
        (setOp envW storeW emptyFS khW [42]).2 khW).2 khW = .error .notExists := by
  have hwf1 : WF envW (setOp envW storeW emptyFS khW [42]).1
      (setOp envW storeW emptyFS khW [42]).2 (insertKey khW [42] []) :=
    WF_set envW storeW emptyFS [] khW [42] (WF_empty _ _) (by simp [khW]) (by norm_num)
  have h := delete_then_get envW (setOp envW storeW emptyFS khW [42]).1
    (setOp envW storeW emptyFS khW [42]).2 (insertKey khW [42] []) khW hwf1
    (by rw [setOp_options, storeW, initStore]; exact setDefaults_useIndexFile _ _)
  exact h.1

/-- C5 counterexample: flushing a concrete freshly opened store with an
empty write buffer is not a no-op on the data file — bytes are appended
(the file gains an empty compressed frame, growing its byte size), so the
claim that an empty flush leaves the data file unchanged and appends no
bytes is false at this input. -/
theorem flush_empty_counterexample :
    ¬ ((flushOp envW storeW emptyFS).2.file = emptyFS.file ∧
       fileSize envW (flushOp envW storeW emptyFS).2.file =
         fileSize envW emptyFS.file) := by
  decide

/-- C5 amended: flushing a store whose write buffer is empty leaves the
in-memory store state (persisted index, buffer, buffer index) and the
sidecar index file unchanged, and leaves the data file's decompressed
record stream unchanged, but it does append bytes to the data file: one
empty compressed frame, emitted because `flush` has no empty-buffer check
and the streaming zstd encoder writes a frame on `Close` even for empty
input.  The same holds for the empty flush performed by `Close`. -/
theorem flush_empty_amended (env : Env) (s : Store) (fs : FS)
    (M : List (Key × List Nat)) (hwf : WF env s fs M) (hbe : s.buffer = []) :
    (flushOp env s fs).1 = s ∧
    (flushOp env s fs).2.idx = fs.idx ∧
    (flushOp env s fs).2.file = fs.file ++ [[]] ∧
    (flushOp env s fs).2.file.flatten = fs.file.flatten ∧
    closeOp env s fs = flushOp env s fs := by
  have h := flushOp_of_empty env s fs hbe
    (bufferIndex_nil_of_buffer_nil env s fs M hwf hbe)
  rw [h]
  exact ⟨rfl, rfl, rfl, by simp, by rw [closeOp, h]⟩

/-- C5 witness: the amended statement at a freshly opened empty store. -/
theorem flush_empty_amended_witness :
    (flushOp envW storeW emptyFS).1 = storeW ∧
    (flushOp envW storeW emptyFS).2.idx = emptyFS.idx ∧
    (flushOp envW storeW emptyFS).2.file = emptyFS.file ++ [[]] ∧
    (flushOp envW storeW emptyFS).2.file.flatten = emptyFS.file.flatten ∧
    closeOp envW storeW emptyFS = flushOp envW storeW emptyFS :=
  flush_empty_amended envW storeW emptyFS [] (WF_empty _ _) rfl

/-- C7: when a `Get` resolves through the persisted index (key absent from
the buffer index) and the record read at the recorded offsets carries a
different key hash, the read fails with the hash-mismatch error carrying
both the expected and the actual hash, and never returns the mismatching
record's value. -/
theorem get_wrong_hash (env : Env) (s : Store) (fs : FS) (kh : Key)
    (offs : Offsets) (st : List Nat) (n : Nat) (r : Record)
    (hbuf : findVal kh s.bufferDataOffset = none)
    (hdata : findVal kh s.dataOffset = some offs)
    (hst : streamAt env fs.file offs.blockOffset = some st)
    (hro : offs.recordOffset ≤ st.length)
    (hread : readRecord (st.drop offs.recordOffset) = some (n, r))
    (hne : r.keyHash ≠ kh) :
    getGobBytes env s fs kh = .error (.wrongHash kh r.keyHash) ∧
    ∀ v, getGobBytes env s fs kh ≠ .ok v := by
  have hmain : getGobBytes env s fs kh = .error (.wrongHash kh r.keyHash) := by
    simp only [getGobBytes, hbuf, hdata, hst]
    rw [if_neg (Nat.not_lt.mpr hro)]
    simp [hread, hne]
  exact ⟨hmain, fun v hv => by rw [hmain] at hv; exact absurd hv (by simp)⟩

/-- C7 witness: the desynchronized index yields the two-hash error. -/
theorem get_wrong_hash_witness :
    getGobBytes envW storeC7 fsC7 khW =
      .error (.wrongHash khW (List.replicate 28 1)) := by
  have h := get_wrong_hash envW storeC7 fsC7 khW ⟨0, 0⟩ (marshal recC7)
    ((gobEncodeRecord recC7).length + 8) recC7
    (by decide) (by decide) (by decide) (by decide) (by decide) (by decide)
  exact h.1

/-- C9: `setDefaults` unconditionally enables the unexported
`useIndexFile` option, whatever `Options` value the caller passes (the
public struct offers no way to disable it); hence every store handle
`OpenWithOptions` returns has it enabled, and every flush that wrote data
rewrites the sidecar index file to the updated persisted index. -/
theorem useIndexFile_always (env : Env) :
    (∀ o : Options, (setDefaults env o).useIndexFile = true) ∧
    (∀ (o : Options) (fs : FS) (s1 : Store) (fs1 : FS),
      openStore env o fs = .ok (s1, fs1) → s1.options.useIndexFile = true) ∧
    (∀ (s : Store) (fs : FS), s.options.useIndexFile = true → s.buffer ≠ [] →
      (flushOp env s fs).2.idx = some (flushOp env s fs).1.dataOffset) := by
  refine ⟨setDefaults_useIndexFile env, ?_, ?_⟩
  · intro o fs s1 fs1 h
    rw [openStore] at h
    split at h
    · split at h
      · simp only [Except.ok.injEq, Prod.mk.injEq] at h
        rw [← h.1]
        exact setDefaults_useIndexFile env o
      · exact absurd h (by simp)
    · split at h
      · simp only [Except.ok.injEq, Prod.mk.injEq] at h
        rw [← h.1]
        exact setDefaults_useIndexFile env o
      · rw [rebuildIndexOp] at h
        split at h
        · exact absurd h (by simp)
        · simp only [Except.ok.injEq, Prod.mk.injEq] at h
          rw [← h.1]
          exact setDefaults_useIndexFile env o
  · intro s fs hopt hne
    have hl : 0 < s.buffer.length := List.length_pos.mpr hne
    simp [flushOp, hopt, hl]

/-- C9 witness: defaults force the option on a concrete `Options` value,
and a concrete dirty flush rewrites the sidecar. -/
theorem useIndexFile_always_witness :
    (setDefaults envW optW).useIndexFile = true ∧
    (flushOp envW storeC9 emptyFS).2.idx =
      some (flushOp envW storeC9 emptyFS).1.dataOffset := by
  refine ⟨(useIndexFile_always envW).1 optW, ?_⟩
  exact (useIndexFile_always envW).2.2 storeC9 emptyFS (by decide) (by decide)

/-- C10: `Delete` of a key absent from both indices still succeeds and
appends a 37-byte marshaled tombstone record to the write buffer, leaving
both indices as they were; the buffer grows (or, when the tombstone pushes
it over the threshold, the flushed data file grows), rather than the
delete being a no-op. -/
theorem delete_absent_key (env : Env) (s : Store) (fs : FS) (kh : Key)
    (hbuf : findVal kh s.bufferDataOffset = none)
    (hdata : findVal kh s.dataOffset = none)
    (hk : kh.length = 28) :
    (marshal ⟨.delete, kh, []⟩).length = 37 ∧
    (¬ (s.buffer ++ marshal ⟨.delete, kh, []⟩).length > s.options.memoryBufferSize →
      deleteOp env s fs kh =
        ({ s with buffer := s.buffer ++ marshal ⟨.delete, kh, []⟩ }, fs)) ∧
    ((s.buffer ++ marshal ⟨.delete, kh, []⟩).length > s.options.memoryBufferSize →
      (deleteOp env s fs kh).1.buffer = [] ∧
      (deleteOp env s fs kh).2.file =
        fs.file ++ [s.buffer ++ marshal ⟨.delete, kh, []⟩]) := by
  have hlen : (marshal ⟨.delete, kh, []⟩).length = 37 := by
    rw [marshal_length, gobEncodeRecord_length]
    simp [hk]
  have hs1 : { s with
      dataOffset := eraseKey kh s.dataOffset
      bufferDataOffset := eraseKey kh s.bufferDataOffset
      buffer := s.buffer ++ marshal ⟨.delete, kh, []⟩ } =
      { s with buffer := s.buffer ++ marshal ⟨.delete, kh, []⟩ } := by
    rw [eraseKey_of_findVal_none _ _ hbuf, eraseKey_of_findVal_none _ _ hdata]
  refine ⟨hlen, ?_, ?_⟩
  · intro hno
    rw [deleteOp, hs1, if_neg (by simpa using hno)]
  · intro hyes
    rw [deleteOp, hs1, if_pos (by simpa using hyes)]
    exact ⟨by simp [flushOp], by simp [flushOp]⟩

/-- C10 witness: deleting a never-set key on a fresh store appends exactly
the tombstone to the buffer. -/
theorem delete_absent_key_witness :
    deleteOp envW storeW emptyFS khW =
      ({ storeW with buffer := marshal ⟨.delete, khW, []⟩ }, emptyFS) := by
  have h := (delete_absent_key envW storeW emptyFS khW rfl rfl (by decide)).2.1
    (by decide)
  simpa using h

/-- C6 counterexample: at the concrete one-record store `storeC6`, a flush
failing at the compressor-close step does not leave the write buffer and
the buffer index unchanged — both have already been cleared. -/
theorem flush_fail_counterexample :
    ¬ ((flushErrState envW storeC6 emptyFS .encoderClose).buffer = storeC6.buffer ∧
       (flushErrState envW storeC6 emptyFS .encoderClose).bufferDataOffset =
         storeC6.bufferDataOffset) := by
  decide

/-- C6 amended: a flush that fails opening or stat'ing the data file leaves
the in-memory state unchanged, but a flush that fails at or after the
compressor-close/disk-flush step has already drained the write buffer,
reset the buffer index and updated the persisted index, so the buffered
records are lost from the in-memory state (the `TODO: truncate file to
previous state` gap in the source). -/
theorem flush_fail_amended (env : Env) (s : Store) (fs : FS) :
    (flushErrState env s fs .openFile = s ∧ flushErrState env s fs .statFile = s) ∧
    (∀ stage : FlushStage, stage ≠ .openFile → stage ≠ .statFile →
      (flushErrState env s fs stage).buffer = [] ∧
      (flushErrState env s fs stage).bufferDataOffset = [] ∧
      (flushErrState env s fs stage).dataOffset =
        installAll s.dataOffset s.bufferDataOffset (fileSize env fs.file)) := by
  refine ⟨⟨rfl, rfl⟩, ?_⟩
  intro stage h1 h2
  cases stage with
  | openFile => exact absurd rfl h1
  | statFile => exact absurd rfl h2
  | encoderClose => exact ⟨rfl, rfl, rfl⟩
  | diskFlush => exact ⟨rfl, rfl, rfl⟩
  | fileClose => exact ⟨rfl, rfl, rfl⟩
  | saveIndex => exact ⟨rfl, rfl, rfl⟩

/-- C6 witness: the amended statement at the concrete one-record store. -/
theorem flush_fail_amended_witness :
    (flushErrState envW storeC6 emptyFS .encoderClose).buffer = [] ∧
    (flushErrState envW storeC6 emptyFS .encoderClose).bufferDataOffset = [] ∧
    (flushErrState envW storeC6 emptyFS .encoderClose).dataOffset =
      installAll storeC6.dataOffset storeC6.bufferDataOffset
        (fileSize envW emptyFS.file) :=
  (flush_fail_amended envW storeC6 emptyFS).2 .encoderClose
    (by decide) (by decide)

theorem RInv_init (env : Env) (o : Options) :
    RInv env (initStore env o) emptyFS := by
  refine ⟨nodupKeys_nil, [], [], rfl, replayRecords_nil_eq _ _ _, ?_⟩
  intro k
  simp [findVal, initStore]

/-- Replaying one more block continues the fold at the accumulated offset. -/
theorem replayBlocks_snoc (env : Env) (b : List Nat) :
    ∀ (bs : List (List Nat)) (m0 m1 : List (Key × Offsets)) (bo : Nat),
    replayBlocks env m0 bo bs = .ok m1 →
    replayBlocks env m0 bo (bs ++ [b]) =
      match replayRecords m1 (bo + (bs.map env.readBlockN).sum) 0 b with
      | .error e => .error e
      | .ok m2 => .ok m2 := by
  intro bs
  induction bs with
  | nil =>
    intro m0 m1 bo h
    have hm : m0 = m1 := by simpa [replayBlocks] using h
    subst hm
    show replayBlocks env m0 bo [b] = _
    simp only [List.map_nil, List.sum_nil, Nat.add_zero]
    simp only [replayBlocks]
  | cons b0 bs ih =>
    intro m0 m1 bo h
    simp only [replayBlocks] at h
    simp only [List.cons_append, replayBlocks]
    cases hr : replayRecords m0 bo 0 b0 with
    | error e => rw [hr] at h; exact absurd h (by simp)
    | ok mm =>
      rw [hr] at h
      dsimp only at h ⊢
      simp only [List.append_eq]
      rw [ih mm m1 (bo + env.readBlockN b0) h]
      have harith : bo + env.readBlockN b0 + (bs.map env.readBlockN).sum =
          bo + ((b0 :: bs).map env.readBlockN).sum := by
        simp only [List.map_cons, List.sum_cons]
        omega
      rw [harith]

/-- `flush` preserves the replay invariant, provided `readBlock` reports each
frame's true compressed size (`AccurateScan`). -/
theorem RInv_flush (env : Env) (hacc : AccurateScan env) (s : Store) (fs : FS)
    (h : RInv env s fs) :
    RInv env (flushOp env s fs).1 (flushOp env s fs).2 := by
  obtain ⟨hnd, m, m2, hblocks, hbuf, hpt⟩ := h
  have hfile : (flushOp env s fs).2.file = fs.file ++ [s.buffer] := by
    simp [flushOp]
  have hsum : (fs.file.map env.readBlockN).sum = fileSize env fs.file := by
    have he : env.readBlockN = env.csize := funext hacc
    rw [he, fileSize]
  have hblocks2 : replayBlocks env [] 0 (fs.file ++ [s.buffer]) = .ok m2 := by
    rw [replayBlocks_snoc env s.buffer fs.file [] m 0 hblocks]
    rw [Nat.zero_add, hsum, hbuf]
  refine ⟨nodupKeys_nil, m2, m2, ?_, ?_, ?_⟩
  · rw [hfile]; exact hblocks2
  · have hb : (flushOp env s fs).1.buffer = [] := by simp [flushOp]
    rw [hb]; exact replayRecords_nil_eq _ _ _
  · intro k
    have hbdoE : (flushOp env s fs).1.bufferDataOffset = [] := by simp [flushOp]
    rw [hbdoE]
    have hinst : findVal k (flushOp env s fs).1.dataOffset =
        match findVal k s.bufferDataOffset with
        | some o => some ⟨fileSize env fs.file, o⟩
        | none => findVal k s.dataOffset := by
      simp only [flushOp]
      exact findVal_installAll _ _ _ _ hnd
    simp only [findVal]
    rw [hinst]
    exact hpt k

/-- `set` preserves the replay invariant. -/
theorem RInv_set (env : Env) (hacc : AccurateScan env) (s : Store) (fs : FS)
    (kh : Key) (v : List Nat)
    (h : RInv env s fs) (hk : kh.length = 28) (hsz : 29 + v.length < 2 ^ 64) :
    RInv env (setOp env s fs kh v).1 (setOp env s fs kh v).2 := by
  obtain ⟨hnd, m, m2, hblocks, hbuf, hpt⟩ := h
  have hszg : (gobEncodeRecord ⟨.set, kh, v⟩).length < 2 ^ 64 := by
    rw [gobEncodeRecord_length]
    simp only [hk]
    omega
  have hpre : RInv env
      { s with
        bufferDataOffset := insertKey kh s.buffer.length s.bufferDataOffset
        buffer := s.buffer ++ marshal ⟨.set, kh, v⟩ } fs := by
    refine ⟨nodupKeys_insert _ _ _ hnd, m,
      insertKey kh ⟨fileSize env fs.file, s.buffer.length⟩ m2, hblocks, ?_, ?_⟩
    · rw [replayRecords_append s.buffer (marshal ⟨.set, kh, v⟩) m m2 _ _ hbuf]
      rw [replayRecords_marshal m2 (fileSize env fs.file) (0 + s.buffer.length)
        ⟨.set, kh, v⟩ hk hszg]
      simp [applyRecord]
    · intro k
      by_cases hkk : k = kh
      · subst hkk
        rw [findVal_insert_self, findVal_insert_self]
      · rw [findVal_insert_ne _ _ _ _ hkk, findVal_insert_ne _ _ _ _ hkk]
        exact hpt k
  rw [setOp]
  split
  · exact RInv_flush env hacc _ fs hpre
  · exact hpre

/-- `Delete` preserves the replay invariant. -/
theorem RInv_delete (env : Env) (hacc : AccurateScan env) (s : Store) (fs : FS)
    (kh : Key)
    (h : RInv env s fs) (hk : kh.length = 28) :
    RInv env (deleteOp env s fs kh).1 (deleteOp env s fs kh).2 := by
  obtain ⟨hnd, m, m2, hblocks, hbuf, hpt⟩ := h
  have hszg : (gobEncodeRecord ⟨.delete, kh, []⟩).length < 2 ^ 64 := by
    rw [gobEncodeRecord_length]
    simp only [hk]
    norm_num
  have hpre : RInv env
      { s with
        dataOffset := eraseKey kh s.dataOffset
        bufferDataOffset := eraseKey kh s.bufferDataOffset
        buffer := s.buffer ++ marshal ⟨.delete, kh, []⟩ } fs := by
    refine ⟨nodupKeys_erase _ _ hnd, m, eraseKey kh m2, hblocks, ?_, ?_⟩
    · rw [replayRecords_append s.buffer (marshal ⟨.delete, kh, []⟩) m m2 _ _ hbuf]
      rw [replayRecords_marshal m2 (fileSize env fs.file) (0 + s.buffer.length)
        ⟨.delete, kh, []⟩ hk hszg]
      simp [applyRecord]
    · intro k
      rw [findVal_erase]
      by_cases hkk : k = kh
      · rw [if_pos hkk]
        simp only []
        rw [show findVal k (eraseKey kh s.bufferDataOffset) = none from by
          rw [findVal_erase, if_pos hkk]]
        rw [show findVal k (eraseKey kh s.dataOffset) = none from by
          rw [findVal_erase, if_pos hkk]]
      · rw [if_neg hkk]
        rw [show findVal k (eraseKey kh s.bufferDataOffset) =
            findVal k s.bufferDataOffset from by rw [findVal_erase, if_neg hkk]]
        rw [show findVal k (eraseKey kh s.dataOffset) =
            findVal k s.dataOffset from by rw [findVal_erase, if_neg hkk]]
        exact hpt k
  rw [deleteOp]
  split
  · exact RInv_flush env hacc _ fs hpre
  · exact hpre

theorem RInv_foldl (env : Env) (hacc : AccurateScan env) :
    ∀ (ops : List StoreOp) (sfs : Store × FS), RInv env sfs.1 sfs.2 →
      (∀ op ∈ ops, opWF op) →
      RInv env (ops.foldl (applyOp env) sfs).1 (ops.foldl (applyOp env) sfs).2 := by
  intro ops
  induction ops with
  | nil => intro sfs h _; exact h
  | cons op rest ih =>
    intro sfs h hops
    rw [List.foldl_cons]
    refine ih (applyOp env sfs op) ?_ (fun op0 h0 => hops op0 (by simp [h0]))
    have hop := hops op (by simp)
    cases op with
    | setK kh v => exact RInv_set env hacc sfs.1 sfs.2 kh v h hop.1 hop.2
    | delK kh => exact RInv_delete env hacc sfs.1 sfs.2 kh h hop

theorem RInv_runOps (env : Env) (hacc : AccurateScan env) (o : Options)
    (ops : List StoreOp)
    (hops : ∀ op ∈ ops, opWF op) :
    RInv env (runOps env o ops).1 (runOps env o ops).2 :=
  RInv_foldl env hacc ops (initStore env o, emptyFS) (RInv_init env o) hops

/-- If `readBlock` reported each frame's true compressed size
(`AccurateScan`), rebuilding the index by replaying the whole file would
produce exactly the key-hash-to-offset mapping that the incremental
maintenance of `flush` produced, for every flushed operation history.
`readBlock_offset_undercount` shows the hypothesis fails on real frames. -/
theorem rebuild_matches_flush_of_accurate (env : Env) (hacc : AccurateScan env)
    (o : Options) (ops : List StoreOp)
    (hops : ∀ op ∈ ops, opWF op) :
    ∃ s2 fs2,
      rebuildIndexOp env (flushOp env (runOps env o ops).1 (runOps env o ops).2).1
        (flushOp env (runOps env o ops).1 (runOps env o ops).2).2 = .ok (s2, fs2) ∧
      ∀ k, findVal k s2.dataOffset =
        findVal k (flushOp env (runOps env o ops).1 (runOps env o ops).2).1.dataOffset := by
  have hinv := RInv_flush env hacc _ _ (RInv_runOps env hacc o ops hops)
  obtain ⟨hnd, m, m2, hblocks, hbuf, hpt⟩ := hinv
  have hbe : (flushOp env (runOps env o ops).1 (runOps env o ops).2).1.buffer = [] := by
    simp [flushOp]
  have hbdo : (flushOp env (runOps env o ops).1
      (runOps env o ops).2).1.bufferDataOffset = [] := by
    simp [flushOp]
  rw [hbe, replayRecords_nil_eq] at hbuf
  have hm2 : m2 = m := (Except.ok.injEq _ _).mp hbuf.symm
  subst hm2
  refine ⟨{ (flushOp env (runOps env o ops).1 (runOps env o ops).2).1 with
      dataOffset := m2 },
    { (flushOp env (runOps env o ops).1 (runOps env o ops).2).2 with
      idx := some m2 }, ?_, ?_⟩
  · simp only [rebuildIndexOp, hblocks]
  · intro k
    have hpk := hpt k
    rw [hbdo] at hpk
    simpa [findVal] using hpk

/-- The accurate-scan rebuild theorem at a concrete operation history
(`envW` scans accurately by construction). -/
theorem rebuild_matches_flush_accurate_example :
    ∃ s2 fs2,
      rebuildIndexOp envW
        (flushOp envW
          (runOps envW optW [.setK khW [1], .setK (List.replicate 28 9) [2],
            .setK khW [3], .delK (List.replicate 28 9)]).1
          (runOps envW optW [.setK khW [1], .setK (List.replicate 28 9) [2],
            .setK khW [3], .delK (List.replicate 28 9)]).2).1
        (flushOp envW
          (runOps envW optW [.setK khW [1], .setK (List.replicate 28 9) [2],
            .setK khW [3], .delK (List.replicate 28 9)]).1
          (runOps envW optW [.setK khW [1], .setK (List.replicate 28 9) [2],
            .setK khW [3], .delK (List.replicate 28 9)]).2).2 = .ok (s2, fs2) ∧
      ∀ k, findVal k s2.dataOffset =
        findVal k (flushOp envW
          (runOps envW optW [.setK khW [1], .setK (List.replicate 28 9) [2],
            .setK khW [3], .delK (List.replicate 28 9)]).1
          (runOps envW optW [.setK khW [1], .setK (List.replicate 28 9) [2],
            .setK khW [3], .delK (List.replicate 28 9)]).2).1.dataOffset := by
  exact rebuild_matches_flush_of_accurate envW (fun b => rfl) optW _ (by decide)

/-- C3: refuted at the byte level.  `readBlock` returns
`n = len(s)`, the length of the final `ReadBytes(0xfd)` segment of the
scanned frame, not the frame's full compressed size (zkv.go:411), and
`rebuildIndex` advances `blockOffset` by that `n` (zkv.go:478).  On a data
file holding two frames whose first contains an interior `0xfd` byte
(`28 b5 2f fd 01 fd 02`, then `28 b5 2f fd 03`), the scan returns the full
7-byte first frame but reports `n = 5`, so the rebuilt `BlockOffset` for
every record of the second frame is 5 instead of the 7 that `flush`'s
`stat.Size()` bookkeeping recorded: the rebuilt mapping differs from the
incrementally maintained one. -/
theorem readBlock_offset_undercount :
    readBlockGo ([0x28, 0xb5, 0x2f, 0xfd, 0x01, 0xfd, 0x02] ++
        [0x28, 0xb5, 0x2f, 0xfd, 0x03]) =
      ([0x28, 0xb5, 0x2f, 0xfd, 0x01, 0xfd, 0x02], 5, [0x03], false) ∧
    ([0x28, 0xb5, 0x2f, 0xfd, 0x01, 0xfd, 0x02] : List Nat).length = 7 ∧
    (5 : Nat) ≠ 7 := by
  decide

/-! ### Backup (claim C8) -/

theorem findVal_some_of_mem (k : Key) (o : α) (l : List (Key × α))
    (h : (k, o) ∈ l) : ∃ o2, findVal k l = some o2 := by
  induction l with
  | nil => simp at h
  | cons kv rest ih =>
    obtain ⟨k0, v0⟩ := kv
    rcases List.mem_cons.mp h with heq | hmem
    · have hk : k0 = k := by
        have := congrArg Prod.fst heq
        simpa using this.symm
      exact ⟨v0, by simp [findVal, hk]⟩
    · by_cases hk : k0 = k
      · exact ⟨v0, by simp [findVal, hk]⟩
      · obtain ⟨o2, ho2⟩ := ih hmem
        exact ⟨o2, by simp [findVal, hk, ho2]⟩

theorem mem_keys_of_findVal_some (k : Key) (v : α) (l : List (Key × α))
    (h : findVal k l = some v) : k ∈ l.map Prod.fst := by
  induction l with
  | nil => simp [findVal] at h
  | cons kv rest ih =>
    obtain ⟨k0, v0⟩ := kv
    by_cases hk : k0 = k
    · simp [hk]
    · rw [show findVal k ((k0, v0) :: rest) = findVal k rest from by
        simp [findVal, hk]] at h
      simp [ih h]

/-- The representation invariant only depends on the abstract map pointwise. -/
theorem WF_congr (env : Env) (s : Store) (fs : FS)
    (M M2 : List (Key × List Nat)) (hwf : WF env s fs M)
    (heq : ∀ k, findVal k M2 = findVal k M) : WF env s fs M2 := by
  refine ⟨hwf.nodupBuf, ?_, ?_⟩
  · intro k v hv
    rw [heq k] at hv
    exact hwf.keysWF k v hv
  · intro k
    rw [heq k]
    exact hwf.lookupWF k

/-- The copy loop of backup succeeds on a well-formed source and installs
exactly the processed keys into the destination. -/
theorem backupLoop_ok (env : Env) (src : Store) (srcFS : FS)
    (Msrc : List (Key × List Nat)) (hwfS : WF env src srcFS Msrc) :
    ∀ (entries : List (Key × Offsets)) (d : Store) (dfs : FS)
      (Md : List (Key × List Nat)),
    WF env d dfs Md → d.options.useIndexFile = true →
    (d.buffer ≠ [] ∨ Synced d dfs) →
    (∀ kv ∈ entries, ∃ v, findVal kv.1 Msrc = some v) →
    ∃ d2 dfs2 Md2, backupLoop env src srcFS d dfs entries = .ok (d2, dfs2) ∧
      WF env d2 dfs2 Md2 ∧ d2.options = d.options ∧
      (d2.buffer ≠ [] ∨ Synced d2 dfs2) ∧
      ∀ k, findVal k Md2 =
        if k ∈ entries.map Prod.fst then findVal k Msrc else findVal k Md := by
  intro entries
  induction entries with
  | nil =>
    intro d dfs Md hwfD hoptD hpostD _
    exact ⟨d, dfs, Md, rfl, hwfD, rfl, hpostD, fun k => by simp⟩
  | cons kv rest ih =>
    intro d dfs Md hwfD hoptD hpostD hmem
    obtain ⟨k0, o0⟩ := kv
    obtain ⟨v0, hv0⟩ := hmem (k0, o0) (by simp)
    have hget : getGobBytes env src srcFS k0 = .ok v0 := by
      rw [getGobBytes_eq env src srcFS Msrc hwfS k0, hv0]
    have hk0wf := hwfS.keysWF k0 v0 hv0
    have hwfD1 := WF_set env d dfs Md k0 v0 hwfD hk0wf.1 hk0wf.2
    have hoptD1 : (setOp env d dfs k0 v0).1.options.useIndexFile = true := by
      rw [setOp_options]; exact hoptD
    have hpostD1 := setOp_post env d dfs k0 v0 hoptD
    obtain ⟨d2, dfs2, Md2, hrun, hwf2, hopts2, hpost2, hchar⟩ :=
      ih (setOp env d dfs k0 v0).1 (setOp env d dfs k0 v0).2
        (insertKey k0 v0 Md) hwfD1 hoptD1 hpostD1
        (fun kv0 h0 => hmem kv0 (by simp [h0]))
    refine ⟨d2, dfs2, Md2, ?_, hwf2, by rw [hopts2, setOp_options], hpost2, ?_⟩
    · simp only [backupLoop, hget]
      exact hrun
    · intro k
      rw [hchar k]
      by_cases hin : k ∈ rest.map Prod.fst
      · rw [if_pos hin, if_pos (by simp [hin])]
      · rw [if_neg hin]
        by_cases hk : k = k0
        · subst hk
          rw [findVal_insert_self, if_pos (by simp), hv0]
        · rw [findVal_insert_ne _ _ _ _ hk, if_neg (by
            simp only [List.map_cons, List.mem_cons]
            push_neg
            exact ⟨hk, hin⟩)]

theorem openStore_emptyFS (env : Env) (o : Options) :
    openStore env o emptyFS = .ok (initStore env o, emptyFS) := by
  rw [openStore]
  rw [if_neg (by simp [emptyFS])]
  rw [if_pos (show emptyFS.file = [] from rfl)]

/-- C8: `Backup` into a fresh destination produces a store containing
exactly the source's currently-live keys: after the backup, a `Get` on the
reopened destination gives, for every key, the same answer as a `Get` on
the (flushed) source — the current value bytes for every live key and
`ErrNotExists` for every deleted or never-set key. -/
theorem backup_live_keys (env : Env) (s : Store) (fs : FS)
    (M : List (Key × List Nat)) (destOpts : Options) (hwf : WF env s fs M) :
    ∃ s1 fs1 dfs, backupRun env s fs destOpts emptyFS = .ok (s1, fs1, dfs) ∧
      (∀ k, getGobBytes env s1 fs1 k =
        (match findVal k M with
         | some v => Except.ok v
         | none => Except.error GetErr.notExists)) ∧
      ∀ (o2 : Options) (d2 : Store) (dfs2 : FS),
        openStore env o2 dfs = .ok (d2, dfs2) →
        ∀ k, getGobBytes env d2 dfs2 k =
          (match findVal k M with
           | some v => Except.ok v
           | none => Except.error GetErr.notExists) := by
  have hwfF := WF_flush env s fs M hwf
  have hbufF : (flushOp env s fs).1.buffer = [] := by simp [flushOp]
  have hbdoF : (flushOp env s fs).1.bufferDataOffset = [] := by simp [flushOp]
  have hmem : ∀ kv ∈ (flushOp env s fs).1.dataOffset, ∃ v, findVal kv.1 M = some v := by
    intro kv hkv
    obtain ⟨o2, ho2⟩ := findVal_some_of_mem kv.1 kv.2 _ (by
      simpa using hkv)
    have h := hwfF.lookupWF kv.1
    cases hM : findVal kv.1 M with
    | some v => exact ⟨v, rfl⟩
    | none =>
      rw [hM] at h
      rw [h.2] at ho2
      exact absurd ho2 (by simp)
  have hwfD : WF env (initStore env destOpts) emptyFS [] := WF_empty env destOpts
  have hoptD : (initStore env destOpts).options.useIndexFile = true := by
    rw [initStore]
    exact setDefaults_useIndexFile env destOpts
  have hpostD : (initStore env destOpts).buffer ≠ [] ∨
      Synced (initStore env destOpts) emptyFS :=
    Or.inr ⟨rfl, rfl, Or.inr ⟨rfl, rfl, by simp [emptyFS]⟩⟩
  obtain ⟨d2, dfs2, Md2, hrun, hwf2, hopts2, hpost2, hchar⟩ :=
    backupLoop_ok env (flushOp env s fs).1 (flushOp env s fs).2 M hwfF
      (flushOp env s fs).1.dataOffset (initStore env destOpts) emptyFS []
      hwfD hoptD hpostD hmem
  have hMd2 : ∀ k, findVal k M = findVal k Md2 := by
    intro k
    rw [hchar k]
    by_cases hin : k ∈ ((flushOp env s fs).1.dataOffset).map Prod.fst
    · rw [if_pos hin]
    · rw [if_neg hin]
      have h := hwfF.lookupWF k
      cases hM : findVal k M with
      | some v =>
        rw [hM] at h
        rcases h with ⟨o, hfind, -⟩ | ⟨-, offs, hoffs, -⟩
        · rw [hbdoF] at hfind
          exact absurd hfind (by simp [findVal])
        · exact absurd (mem_keys_of_findVal_some _ _ _ hoffs) hin
      | none => simp [findVal]
  have hwf2M : WF env d2 dfs2 M := WF_congr env d2 dfs2 Md2 M hwf2 hMd2
  have hopt2 : d2.options.useIndexFile = true := by
    rw [hopts2]
    exact hoptD
  have hwfC := WF_flush env d2 dfs2 M hwf2M
  have hsyncC : Synced (closeOp env d2 dfs2).1 (closeOp env d2 dfs2).2 :=
    flushOp_synced env d2 dfs2 hopt2 hpost2
  refine ⟨(flushOp env s fs).1, (flushOp env s fs).2, (closeOp env d2 dfs2).2, ?_, ?_, ?_⟩
  · simp only [backupRun, openStore_emptyFS]
    rw [hrun]
  · intro k
    exact getGobBytes_eq env _ _ M hwfF k
  · intro o2 d3 dfs3 hopen k
    obtain ⟨d4, dfs4, hopen4, hwf4⟩ :=
      openStore_of_synced env o2 _ _ M hsyncC hwfC
    rw [hopen4] at hopen
    simp only [Except.ok.injEq, Prod.mk.injEq] at hopen
    obtain ⟨hd, hfs⟩ := hopen
    subst hd hfs
    exact getGobBytes_eq env _ _ M hwf4 k

/-- C8 witness: backing up after one `Set` and one `Delete` of a second
never-flushed key. -/
theorem backup_live_keys_witness :
    ∃ s1 fs1 dfs,
      backupRun envW
        (deleteOp envW (setOp envW storeW emptyFS khW [42]).1
          (setOp envW storeW emptyFS khW [42]).2 (List.replicate 28 9)).1
        (deleteOp envW (setOp envW storeW emptyFS khW [42]).1
          (setOp envW storeW emptyFS khW [42]).2 (List.replicate 28 9)).2
        optW emptyFS = .ok (s1, fs1, dfs) ∧
      (∀ k, getGobBytes envW s1 fs1 k =
        (match findVal k (eraseKey (List.replicate 28 9) (insertKey khW [42] [])) with
         | some v => Except.ok v
         | none => Except.error GetErr.notExists)) ∧
      ∀ (o2 : Options) (d2 : Store) (dfs2 : FS),
        openStore envW o2 dfs = .ok (d2, dfs2) →
        ∀ k, getGobBytes envW d2 dfs2 k =
          (match findVal k (eraseKey (List.replicate 28 9) (insertKey khW [42] [])) with
           | some v => Except.ok v
           | none => Except.error GetErr.notExists) := by
  have hwf1 : WF envW (setOp envW storeW emptyFS khW [42]).1
      (setOp envW storeW emptyFS khW [42]).2 (insertKey khW [42] []) :=
    WF_set envW storeW emptyFS [] khW [42] (WF_empty _ _) (by decide) (by norm_num)
  have hwf2 := WF_delete envW _ _ _ (List.replicate 28 9) hwf1
  exact backup_live_keys envW _ _ _ optW hwf2

end Zkv
